import Mathlib

/-!
Verification development for the app-management reconciliation engine
(`appdaemon/app_management.py`).

The embedding is shallow: Python dicts that preserve insertion order are
modelled as association lists, file-system interaction is modelled by an
explicit `FS` value (paths, modification times and parse results), floats
used for priorities are modelled as rationals, and Python exceptions
(`TypeError`, `KeyError`, the `ValueError` of `topological_sort`) are
modelled with `Except` / an explicit error flag.  Side effects on
collaborators (calling an app's terminate hook, constructing an app
object, recomputing thread pins, invoking an app's initialize hook)
are recorded as an `Event` trace in program order.

Modelling conventions, fixed once for the whole file:
* configuration values that may be "a scalar or a list" in YAML
  (`dependencies`, `plugin`, `global_dependencies`, `global_modules`)
  are embedded in their `utils.single_or_list` normal form, a list;
* module file paths are embedded as a record whose `base` component is
  the module name, so `get_module_from_path` is the `base` projection;
* the dynamic module loader is external; whether `read_app` raises for
  a file is supplied by a `loadFails` oracle list;
* the deprecated single-file `apps.yaml` branch, profiling, thread
  auto-add and the `exit=True` shutdown path are outside the model.
-/

/-- Python errors that the modelled code can raise. -/
inductive PyErr
  | typeError
  | keyError
deriving DecidableEq, Repr

deriving instance DecidableEq for Except

/-- A module file path: `dir/base.ext`; `get_module_from_path` returns `base`. -/
structure MPath where
  dir : String
  base : String
  ext : String
deriving DecidableEq, Repr

/-- Priority values.  The engine computes priorities as floats built from
50, 50.1 and steps of 0.0001; they are embedded in fixed-point units of
1/10000 (one step), so 50 is `500000` and 50.1 is `501000`.  Order and
equality of the embedded values match the source wherever float rounding
does not intervene, and no claim depends on float rounding. -/
abbrev Prio := Int

/-- The configured default priority, `float(50)`. -/
def defaultPrio : Prio := 500000

/-- The first clustered priority, `float(50.1)`. -/
def startPrio : Prio := 501000

/-- The clustering step, `float(0.0001)`. -/
def stepPrio : Prio := 1

/-- A validated app entry of `self.app_config` (the value of one app key).
Optional keys of the YAML table are `Option` fields; `module` and `class`
are mandatory after validation.  `klass` stands for the `class` key. -/
structure AppCfg where
  module : String
  klass : String
  dependencies : Option (List String) := none
  priority : Option Prio := none
  disable : Option Bool := none
  pin_thread : Option Int := none
  plugin : Option (List String) := none
  global_dependencies : Option (List String) := none
deriving DecidableEq, Repr

/-- A value of `self.app_config`: either an app table or the value of the
special `global_modules` key (a list of module names). -/
inductive ConfigVal
  | app (a : AppCfg)
  | gm (mods : List String)
deriving DecidableEq, Repr

/-- `self.app_config`, a Python dict in insertion order. -/
abbrev Config := List (String × ConfigVal)

/-- Association-list lookup, the model of Python `d[k]` / `k in d`. -/
def alookup {α : Type} : List (String × α) → String → Option α
  | [], _ => none
  | (k, v) :: rest, key => if k = key then some v else alookup rest key

/-- Dict-style insertion `d[k] = 1`: a repeated key keeps its position. -/
def addKey (l : List String) (k : String) : List String :=
  if k ∈ l then l else l ++ [k]

/-- Model of `"dependencies" in cfg[app]` followed by the access
`cfg[app]["dependencies"]`: on an app table this reads the optional key;
on the `global_modules` list the `in` test is list membership and the
subsequent string index raises `TypeError`. -/
def depsKey : ConfigVal → Except PyErr (Option (List String))
  | .app a => .ok a.dependencies
  | .gm l => if "dependencies" ∈ l then .error .typeError else .ok none

/-- Model of the bare membership test `"dependencies" in cfg[app]` (no access). -/
def hasDepsKey : ConfigVal → Bool
  | .app a => a.dependencies.isSome
  | .gm l => decide ("dependencies" ∈ l)

/-- Model of `"priority" in cfg[app]` followed by `cfg[app]["priority"]`. -/
def priorityKey : ConfigVal → Except PyErr (Option Prio)
  | .app a => .ok a.priority
  | .gm l => if "priority" ∈ l then .error .typeError else .ok none

/-- Model of `"disable" in cfg[app] and cfg[app]["disable"] is True`. -/
def disableKey : ConfigVal → Except PyErr Bool
  | .app a => .ok (a.disable = some true)
  | .gm l => if "disable" ∈ l then .error .typeError else .ok false

/-- Model of `cfg[app]["module"]`: on the `global_modules` list the string
index raises `TypeError`. -/
def moduleField : ConfigVal → Except PyErr String
  | .app a => .ok a.module
  | .gm _ => .error .typeError

/-- Model of `"global_dependencies" in cfg[app]` plus the access. -/
def globalDepsKey : ConfigVal → Except PyErr (Option (List String))
  | .app a => .ok a.global_dependencies
  | .gm l => if "global_dependencies" ∈ l then .error .typeError else .ok none

/-! ## `topological_sort` (app_management.py lines 753-780)

The generator is embedded as a function returning the list of names it
yields, in order, together with an error flag that is `true` exactly when
a pass emits nothing while entries remain pending (the `ValueError`
branch).  `runPass` is the body of the `while` loop: it threads the
`emitted` list, which at the start of a pass holds the previous pass's
emissions and grows with the current pass's emissions, exactly as the
Python list does. -/
/-- One `for entry in pending` pass.  Returns `(next_pending, next_emitted)`;
pending entries keep their `difference_update`d dependency sets. -/
def runPass (em : List String) : List (String × List String) →
    List (String × List String) × List String
  | [] => ([], [])
  | (name, deps) :: rest =>
    if (deps.filter (fun d => decide (d ∉ em))).isEmpty then
      ((runPass (em ++ [name]) rest).1, name :: (runPass (em ++ [name]) rest).2)
    else
      ((name, deps.filter (fun d => decide (d ∉ em))) :: (runPass em rest).1,
       (runPass em rest).2)

/-- The `while pending` loop.  The fuel argument only makes the recursion
structural; `fuel > pending.length` always holds on the call path from
`topological_sort`, so the fuel-exhaustion branch is unreachable. -/
def topoLoop : Nat → List String → List (String × List String) →
    List String × Bool
  | 0, _, pending => ([], !pending.isEmpty)
  | fuel + 1, em, pending =>
    if pending.isEmpty then ([], false)
    else if (runPass em pending).2.isEmpty then ([], true)
    else ((runPass em pending).2 ++
            (topoLoop fuel (runPass em pending).2 (runPass em pending).1).1,
          (topoLoop fuel (runPass em pending).2 (runPass em pending).1).2)

/-- `topological_sort(source)`: the yielded names in order, and whether the
cyclic-dependency `ValueError` was raised after them. -/
def topological_sort (source : List (String × List String)) :
    List String × Bool :=
  topoLoop (source.length + 1) [] source

/-! ## `get_dependent_apps` (lines 742-751)

The recursion appends every direct dependent of `dependee` that is not
already in `deps` and immediately recurses on it, sharing the growing
`deps` list.  `gdaScan` is the `for app in self.app_config` loop with the
recursive call abstracted; `get_dependent_apps` ties the knot with a fuel
that only makes the recursion structural — each nesting level appends a
new name drawn from the config keys, so `cfg.length + 1` fuel (supplied
by `buildDepList`) is never exhausted (`get_dependent_apps_fuel_ge`). -/
def gdaScan (recurse : String → List String → Except PyErr (List String))
    (dependee : String) :
    Config → List String → Except PyErr (List String)
  | [], deps => .ok deps
  | (app, v) :: rest, deps =>
    match depsKey v with
    | .error e => .error e
    | .ok none => gdaScan recurse dependee rest deps
    | .ok (some ds) =>
      if dependee ∈ ds ∧ app ∉ deps then
        match recurse app (deps ++ [app]) with
        | .error e => .error e
        | .ok deps2 => gdaScan recurse dependee rest deps2
      else gdaScan recurse dependee rest deps

def get_dependent_apps (cfg : Config) :
    Nat → String → List String → Except PyErr (List String)
  | 0, _, deps => .ok deps
  | fuel + 1, dependee, deps =>
    gdaScan (get_dependent_apps cfg fuel) dependee cfg deps

/-- The `deplist` accumulation at the top of `get_app_deps_and_prios`
(lines 688-692): seed each requested app, then collect its transitive
dependents. -/
def buildDepList (cfg : Config) (applist : List String) :
    Except PyErr (List String) :=
  applist.foldlM
    (fun deps app =>
      get_dependent_apps cfg (cfg.length + 1) app
        (if app ∈ deps then deps else deps ++ [app]))
    []

/-- `app_has_dependents` (lines 734-740); Python returns on the first
match, so later entries are not inspected once a dependent is found. -/
def app_has_dependents (cfg : Config) (name : String) : Except PyErr Bool :=
  cfg.foldlM
    (fun found p =>
      if found then pure true
      else
        match depsKey p.2 with
        | .error e => .error e
        | .ok none => pure false
        | .ok (some ds) => pure (decide (name ∈ ds)))
    false

/-- The dependency list built for one app of `full_list` (lines 700-708):
declared dependencies are kept only when they name a configured app;
an unknown dependency is dropped (with a warning in the source). -/
def validDeps (cfg : Config) (app : String) : Except PyErr (List String) :=
  match alookup cfg app with
  | none => .error .keyError
  | some v =>
    match depsKey v with
    | .error e => .error e
    | .ok none => .ok []
    | .ok (some ds) => .ok (ds.filter (fun d => decide ((alookup cfg d).isSome)))

/-- The `deps` list handed to `topological_sort` (lines 694-708), built
over the full key list of the current configuration. -/
def buildDepSpec (cfg : Config) : Except PyErr (List (String × List String)) :=
  (cfg.map Prod.fst).mapM (fun app => do
    let ds ← validDeps cfg app
    pure (app, ds))

/-- One step of the priority loop body (lines 713-721) on the running
pair (assignment so far, next clustered value). -/
def prioAssignStep (cfg : Config) (st : List (String × Prio) × Prio)
    (app : String) : Except PyErr (List (String × Prio) × Prio) :=
  match alookup cfg app with
  | .none => Except.error PyErr.keyError
  | .some v =>
    match (if hasDepsKey v then Except.ok true
           else app_has_dependents cfg app) with
    | .error e => Except.error e
    | .ok true => Except.ok (st.1 ++ [(app, st.2)], st.2 + stepPrio)
    | .ok false =>
      match priorityKey v with
      | .error e => Except.error e
      | .ok (some p) => Except.ok (st.1 ++ [(app, p)], st.2)
      | .ok none => Except.ok (st.1 ++ [(app, defaultPrio)], st.2)

/-- Priority assignment over the names emitted by the topological sort
(lines 710-723): an app with a `dependencies` key or with dependents gets
the next clustered value starting at 50.1 with step 0.0001; any other app
gets its configured priority, defaulting to 50. -/
def assignPrios (cfg : Config) (emitted : List String) :
    Except PyErr (List (String × Prio)) :=
  (emitted.foldlM (prioAssignStep cfg) ([], startPrio)).map Prod.fst

/-- `get_app_deps_and_prios` (lines 684-732).  The `ValueError` a cyclic
configuration raises out of the generator is caught (line 722), so the
priority loop simply runs over the names emitted before the error. -/
def get_app_deps_and_prios (cfg : Config) (applist : List String) :
    Except PyErr (List (String × Prio)) := do
  let deplist ← buildDepList cfg applist
  let spec ← buildDepSpec cfg
  let prio_apps ← assignPrios cfg (topological_sort spec).1
  pure (prio_apps.filter (fun p => decide (p.1 ∈ deplist)))

def cfgT1 : Config :=
  [("A", .app { module := "m", klass := "K" }),
   ("B", .app { module := "m", klass := "K", dependencies := some ["C"] })]

def cfgT2 : Config :=
  [("A", .app { module := "m", klass := "K", dependencies := some ["B"] }),
   ("B", .app { module := "m", klass := "K", dependencies := some ["A"] }),
   ("C", .app { module := "m", klass := "K" })]

/-! ## Specification notions for the dependency graph -/
/-- The dependency edge of a sort input: `Edg src a b` says the entry for
`a` lists `b` among its dependencies. -/
def Edg (src : List (String × List String)) (a b : String) : Prop :=
  ∃ ds, (a, ds) ∈ src ∧ b ∈ ds

/-- A dependency specification contains a cycle: some node depends on
itself through one or more edges. -/
def HasCycle (src : List (String × List String)) : Prop :=
  ∃ a, Relation.TransGen (Edg src) a a

/-- An output list respects the dependency specification: wherever a name
occurs, all its declared dependencies occur strictly earlier. -/
def OrdOk (src : List (String × List String)) (out : List String) : Prop :=
  ∀ l1 n l2, out = l1 ++ n :: l2 → ∀ ds, (n, ds) ∈ src → ∀ d ∈ ds, d ∈ l1

/-- A three-app acyclic specification used to witness C1. -/
def srcW : List (String × List String) :=
  [("A", []), ("B", ["A"]), ("C", ["A", "B"])]

/-- Names ranked compatibly with the edges of `srcW`. -/
def rankW (s : String) : Nat :=
  if s = "A" then 0 else if s = "B" then 1 else 2

/-- The dependency specification that `cfgT2` validates to: a two-app
cycle plus an independent app. -/
def specW2 : List (String × List String) :=
  [("A", ["B"]), ("B", ["A"]), ("C", [])]

/-! ## Closure of the dependent-expansion (`get_dependent_apps`) -/
/-- The raw dependent edge of a configuration: the entry of `y` lists `x`
among its dependencies (validity of `x` is not checked here, exactly as
in `get_dependent_apps`). -/
def RawDepEdge (cfg : Config) (y x : String) : Prop :=
  ∃ v ds, (y, v) ∈ cfg ∧ depsKey v = Except.ok (some ds) ∧ x ∈ ds

/-- How many configured names are not yet collected; the measure that
shrinks at every nested `get_dependent_apps` call. -/
def slack (cfg : Config) (deps : List String) : Nat :=
  ((cfg.map Prod.fst).filter (fun k => decide (k ∉ deps))).length

/-- A three-app chain used to witness C9. -/
def cfgT9 : Config :=
  [("X", .app { module := "m", klass := "K" }),
   ("Z", .app { module := "m", klass := "K", dependencies := some ["X"] }),
   ("Y", .app { module := "m", klass := "K", dependencies := some ["Z"] })]

/-! ## File-system model, manager state and `check_config`

`read_config` / `check_later_app_configs` / `check_config` (lines
176-371) and the module-scanning part of `check_app_updates` are embedded
against an explicit file-system value.  Parsing is external: each config
document is given by its `read_config_file` result (`none` when the file
did not parse to a dict).  The deprecated single-file `apps.yaml` branch
is outside the model (modern directory layout only). -/
/-- A candidate app table before validation: any key may be missing. -/
structure RawApp where
  module : Option String := none
  klass : Option String := none
  dependencies : Option (List String) := none
  priority : Option Prio := none
  disable : Option Bool := none
  pin_thread : Option Int := none
  plugin : Option (List String) := none
  global_dependencies : Option (List String) := none
deriving DecidableEq, Repr

/-- The value of one key of a parsed document: a string-list value or a
table.  (Scalar strings are embedded as singleton lists, the
`single_or_list` normal form.) -/
inductive RawVal
  | strs (l : List String)
  | table (t : RawApp)
deriving DecidableEq, Repr

/-- A parsed config document: `none` when `read_config_file` produced no
dict (parse error or non-dict document); a present entry may still carry
a YAML `null` value. -/
abbrev RawDoc := Option (List (String × Option RawVal))

/-- The file system visible to the manager: config documents and code
modules in walk order, each with a modification time. -/
structure FS where
  configFiles : List (String × Int × RawDoc)
  moduleFiles : List (MPath × Int)
deriving Repr

/-- The manager's mutable state (the `self.*` fields the claims touch). -/
structure AMState where
  app_config_file_modified : Int
  app_config_files : Option (List String)
  app_config : Config
  monitored_files : List (MPath × Int)
  objects : List String
deriving DecidableEq, Repr

/-- Observable side effects, in program order. -/
inductive Event
  | termApp (name : String)
  | readMod (p : MPath)
  | readModFail (p : MPath)
  | construct (name : String)
  | disabledSkip (name : String)
  | appError (name : String)
  | pinThreads
  | callInit (name : String)
  | noInit (name : String)
deriving DecidableEq, Repr

/-- `{"init": ..., "term": ..., "total": ...}` returned by `check_config`. -/
structure Plan where
  init : List String
  term : List String
  total : Nat
deriving DecidableEq, Repr

/-- Generic association-list lookup for `MPath`-keyed dicts. -/
def mlookup {α : Type} : List (MPath × α) → MPath → Option α
  | [], _ => none
  | (k, v) :: rest, key => if k = key then some v else mlookup rest key

/-- One document's `valid_apps` (lines 191-204): `global_modules` is kept
as-is; other entries are kept when the `class` and `module` keys are both
present (for a list value this is list membership); `null` entries and
entries missing a key are dropped with a warning.  A table-valued
`global_modules` is outside the model and is embedded as an empty list. -/
def validApps (doc : RawDoc) : List (String × ConfigVal) :=
  match doc with
  | none => []
  | some entries =>
    entries.foldl (fun acc p =>
      match p.2 with
      | none => acc
      | some (RawVal.strs l) =>
        if p.1 = "global_modules" then acc ++ [(p.1, ConfigVal.gm l)]
        else if "class" ∈ l ∧ "module" ∈ l then acc ++ [(p.1, ConfigVal.gm l)]
        else acc
      | some (RawVal.table t) =>
        if p.1 = "global_modules" then acc ++ [(p.1, ConfigVal.gm [])]
        else
          match t.module, t.klass with
          | some m, some k =>
            acc ++ [(p.1, ConfigVal.app
              ⟨m, k, t.dependencies, t.priority, t.disable, t.pin_thread,
               t.plugin, t.global_dependencies⟩)]
          | _, _ => acc) []

/-- Merging a document's `valid_apps` into the accumulated config
(lines 208-212): a duplicate name is rejected with a warning. -/
def mergeApps (acc : Config) (valid : List (String × ConfigVal)) : Config :=
  valid.foldl
    (fun acc p => if (alookup acc p.1).isSome then acc else acc ++ [p]) acc

/-- `read_config` (lines 176-214), directory branch: `none` only when no
config document was seen at all. -/
def read_config (fs : FS) : Option Config :=
  fs.configFiles.foldl
    (fun acc f => some (mergeApps (acc.getD []) (validApps f.2.2))) none

/-- The result dict of `check_later_app_configs`. -/
structure LaterFiles where
  files : List String
  latest : Int
  deleted : List String
deriving DecidableEq, Repr

/-- The previously listed files now missing from the directory. -/
def staleOf : Option (List String) → List String → List String
  | none, _ => []
  | some prev, listing => prev.filter (fun f => decide (f ∉ listing))

/-- The files of the directory absent from the previous listing. -/
def freshOf : Option (List String) → List String → List String
  | none, _ => []
  | some prev, listing => listing.filter (fun f => decide (f ∉ prev))

/-- `check_later_app_configs` (lines 216-250), directory branch.  Files
with a newer timestamp than the watermark are reported; files absent from
the previous listing are appended as well (only once a previous listing
exists); deleted files are the previous listing minus the current one.
The listing is committed to the state. -/
def check_later_app_configs (fs : FS) (st : AMState) (last_latest : Int) :
    LaterFiles × AMState :=
  let changed := (fs.configFiles.filter (fun f => last_latest < f.2.1)).map
    Prod.fst
  let latest := fs.configFiles.foldl (fun acc f => max acc f.2.1) last_latest
  let listing := fs.configFiles.map Prod.fst
  (⟨changed ++ freshOf st.app_config_files listing, latest,
    staleOf st.app_config_files listing⟩,
   { st with app_config_files := some listing })

/-- State of the two diff loops of `check_config` (lines 315-349). -/
structure DiffSt where
  term : List String
  init : List String
  objects : List String
  events : List Event
deriving DecidableEq, Repr

/-- The config diff (lines 315-349): a changed app goes to both sets; a
deleted app is terminated immediately through `term_object` (dependency
order is not attempted); a new entry with `class` and `module` goes to
the initialize set, `global_modules` is passed over, and anything else is
dropped with a warning. -/
def diffStep1 (new : Config) (st : DiffSt) (p : String × ConfigVal) :
    DiffSt :=
  match alookup new p.1 with
  | some v2 =>
    if p.2 ≠ v2 then
      { st with term := addKey st.term p.1, init := addKey st.init p.1 }
    else st
  | none =>
    { st with
      objects := st.objects.filter (fun o => decide (o ≠ p.1)),
      events := st.events ++ [Event.termApp p.1] }

def diffStep2 (old : Config) (st : DiffSt) (p : String × ConfigVal) :
    DiffSt :=
  match alookup old p.1 with
  | some _ => st
  | none =>
    match p.2 with
    | ConfigVal.app _ => { st with init := addKey st.init p.1 }
    | ConfigVal.gm l =>
      if "class" ∈ l ∧ "module" ∈ l then
        { st with init := addKey st.init p.1 }
      else st

def diffConfigs (old new : Config) (objects : List String) : DiffSt :=
  new.foldl (diffStep2 old) (old.foldl (diffStep1 new) ⟨[], [], objects, []⟩)

/-- `check_config` (lines 285-364), directory branch.  The watermark is
advanced before any document is read; when nothing changed an empty plan
is returned; when the fresh read yields nothing (`None`) the cycle is
aborted with no plan; otherwise the diff is applied (deleted apps are
terminated on the spot) and the new config is committed. -/
def check_config (fs : FS) (st : AMState) :
    Option Plan × AMState × List Event :=
  let total0 := st.app_config.length
  let later := check_later_app_configs fs st st.app_config_file_modified
  let st2 := { later.2 with app_config_file_modified := later.1.latest }
  if later.1.files.isEmpty ∧ later.1.deleted.isEmpty then
    (some ⟨[], [], total0⟩, st2, [])
  else
    match read_config fs with
    | none => (none, st2, [])
    | some newCfg =>
      let d := diffConfigs st2.app_config newCfg st2.objects
      (some ⟨d.init, d.term, newCfg.length⟩,
       { st2 with app_config := newCfg, objects := d.objects }, d.events)

/-! ## `check_app_updates` (lines 486-682) -/
/-- Model of `"plugin" in cfg[app]` plus the access. -/
def pluginKey : ConfigVal → Except PyErr (Option (List String))
  | .app a => .ok a.plugin
  | .gm l => if "plugin" ∈ l then .error .typeError else .ok none

/-- `get_module_from_path` (lines 420-424): basename without extension. -/
def get_module_from_path (p : MPath) : String := p.base

/-- `utils.single_or_list` applied to a config value.  Applied to a table
(a Python dict) the original wraps the dict in a one-element list whose
element can never compare equal to a module-name string; that case is
embedded as the empty list, which is equivalent for every comparison the
engine performs. -/
def singleOrList : ConfigVal → List String
  | .gm l => l
  | .app _ => []

/-- `apps_per_module` (lines 782-788). -/
def apps_per_module (cfg : Config) (module : String) :
    Except PyErr (List String) :=
  cfg.foldlM (fun acc p =>
    if p.1 ≠ "global_modules" then do
      let m ← moduleField p.2
      if m = module then pure (acc ++ [p.1]) else pure acc
    else pure acc) []

/-- `apps_per_global_module` (lines 790-798). -/
def apps_per_global_module (cfg : Config) (module : String) :
    Except PyErr (List String) :=
  cfg.foldlM (fun acc p => do
    match ← globalDepsKey p.2 with
    | some gds => if module ∈ gds then pure (acc ++ [p.1]) else pure acc
    | none => pure acc) []

/-- The module scan of `check_app_updates` (lines 505-556): detect
modified and new `.py` files against `monitored_files`, update the
recorded timestamps, and compute the deleted modules (removed from
`monitored_files`).  Returns `(modules, deleted_modules, state)`. -/
def scanStep (acc : List (MPath × Bool) × List (MPath × Int))
    (f : MPath × Int) : List (MPath × Bool) × List (MPath × Int) :=
  match mlookup acc.2 f.1 with
  | some stored =>
    if stored < f.2 then
      (acc.1 ++ [(f.1, true)],
       acc.2.map (fun p => if p.1 = f.1 then (p.1, f.2) else p))
    else acc
  | none => (acc.1 ++ [(f.1, false)], acc.2 ++ [(f.1, f.2)])

def scanModules (fs : FS) (st : AMState) :
    List (MPath × Bool) × List MPath × AMState :=
  let scan := fs.moduleFiles.foldl scanStep ([], st.monitored_files)
  let found := fs.moduleFiles.map Prod.fst
  (scan.1,
   (scan.2.map Prod.fst).filter (fun f => decide (f ∉ found)),
   { st with monitored_files := scan.2.filter (fun p => decide (p.1 ∈ found)) })

/-- `apps["term"][app] = 1`: indexing a `None` plan raises `TypeError`. -/
def planTermAdd (p : Option Plan) (app : String) :
    Except PyErr (Option Plan) :=
  match p with
  | none => Except.error PyErr.typeError
  | some pl => Except.ok (some { pl with term := addKey pl.term app })

/-- `apps["init"][app] = 1`: indexing a `None` plan raises `TypeError`. -/
def planInitAdd (p : Option Plan) (app : String) :
    Except PyErr (Option Plan) :=
  match p with
  | none => Except.error PyErr.typeError
  | some pl => Except.ok (some { pl with init := addKey pl.init app })

/-- Adding one app to the plan for a module event: terminate on reload,
always initialize (lines 562-564 and 570-572). -/
def termAddInit (reload : Bool) (p : Option Plan) (app : String) :
    Except PyErr (Option Plan) := do
  let p ← if reload then planTermAdd p app else pure p
  planInitAdd p app

/-- One deleted module (lines 553-556): every app of the module is added
to the terminate set. -/
def dmpStep (cfg : Config) (p : Option Plan) (file : MPath) :
    Except PyErr (Option Plan) := do
  let apps ← apps_per_module cfg (get_module_from_path file)
  apps.foldlM planTermAdd p

/-- Deleted modules (lines 553-556). -/
def deletedModulesPhase (cfg : Config) (deleted : List MPath)
    (p : Option Plan) : Except PyErr (Option Plan) :=
  deleted.foldlM (dmpStep cfg) p

/-- One declared global module checked against one changed module
(lines 566-572). -/
def gmStep (cfg : Config) (m : MPath × Bool) (p : Option Plan)
    (gm : String) : Except PyErr (Option Plan) :=
  if gm = get_module_from_path m.1 then do
    let gapps ← apps_per_global_module cfg gm
    gapps.foldlM (termAddInit m.2) p
  else pure p

/-- One changed/new module (lines 560-572): its apps are added to the
initialize set (and, on reload, the terminate set); dependents of a
matching global module are handled the same way. -/
def mStep (cfg : Config) (p : Option Plan) (m : MPath × Bool) :
    Except PyErr (Option Plan) := do
  let mapps ← apps_per_module cfg (get_module_from_path m.1)
  let p ← mapps.foldlM (termAddInit m.2) p
  match alookup cfg "global_modules" with
  | none => pure p
  | some v => (singleOrList v).foldlM (gmStep cfg m) p

/-- Changed/new modules (lines 558-572). -/
def modulesPhase (cfg : Config) (modules : List (MPath × Bool))
    (p : Option Plan) : Except PyErr (Option Plan) :=
  modules.foldlM (mStep cfg) p

/-- Plugin restart (lines 574-596): an app referencing the plugin — or
declaring no plugin at all — is terminated and reinitialized; a wildcard
matches any app with a non-empty plugin list. -/
def pluginPhase (cfg : Config) (plugin : Option String)
    (p : Option Plan) : Except PyErr (Option Plan) :=
  match plugin with
  | none => pure p
  | some plg =>
    cfg.foldlM (fun p entry =>
      if entry.1 = "global_modules" then pure p
      else do
        match ← pluginKey entry.2 with
        | some l =>
          if plg ∈ l ∨ (plg = "__ALL__" ∧ l ≠ []) then do
            let p ← planTermAdd p entry.1
            planInitAdd p entry.1
          else pure p
        | none => do
          let p ← planTermAdd p entry.1
          planInitAdd p entry.1) p

/-- Stable insertion for ascending priority order (`sorted` with the
priority as key). -/
def insertAsc (x : String × Prio) :
    List (String × Prio) → List (String × Prio)
  | [] => [x]
  | y :: ys => if x.2 ≤ y.2 then x :: y :: ys else y :: insertAsc x ys

def sortAsc (l : List (String × Prio)) : List String :=
  (l.foldr insertAsc []).map Prod.fst

/-- Stable insertion for descending priority order (`sorted` with
`reverse=True`). -/
def insertDesc (x : String × Prio) :
    List (String × Prio) → List (String × Prio)
  | [] => [x]
  | y :: ys => if y.2 ≤ x.2 then x :: y :: ys else y :: insertDesc x ys

def sortDesc (l : List (String × Prio)) : List String :=
  (l.foldr insertDesc []).map Prod.fst

/-- The terminate phase (lines 598-617): apps of the terminate set, in
descending priority order; each termination's own failure is caught. -/
def termPhase (cfg : Config) (p : Option Plan) (objects : List String) :
    Except PyErr (List Event × List String) :=
  match p with
  | none => pure ([], objects)
  | some pl =>
    if pl.term.isEmpty then pure ([], objects)
    else do
      let prio ← get_app_deps_and_prios cfg pl.term
      let order := sortDesc prio
      pure (order.map Event.termApp,
        order.foldl (fun objs a => objs.filter (fun o => decide (o ≠ a)))
          objects)

/-- The removal loop of the module-load failure handler (lines 633-639):
every app whose `module` field equals the failed module is deleted from
the initialize set.  Note `self.app_config[app]["module"]` is evaluated
for every entry, including `global_modules`. -/
def removalLoop (cfg : Config) (module : String) (p : Option Plan) :
    Except PyErr (Option Plan) :=
  cfg.foldlM (fun p entry => do
    let m ← moduleField entry.2
    if m = module then
      match p with
      | none => Except.error PyErr.typeError
      | some pl =>
        if ¬ pl.init.isEmpty ∧ entry.1 ∈ pl.init then
          pure (some { pl with
            init := pl.init.filter (fun a => decide (a ≠ entry.1)) })
        else pure (some pl)
    else pure p) p

/-- The module load/reload loop (lines 619-639): `read_app` is attempted
for every collected module; a failure (per the `loadFails` oracle) runs
the removal loop instead of aborting the cycle. -/
def loadPhase (cfg : Config) (modules : List (MPath × Bool))
    (loadFails : List MPath) (p : Option Plan) :
    Except PyErr (Option Plan × List Event) :=
  modules.foldlM (fun st m =>
    if m.1 ∈ loadFails then do
      let p2 ← removalLoop cfg (get_module_from_path m.1) st.1
      pure (p2, st.2 ++ [Event.readModFail m.1])
    else pure (st.1, st.2 ++ [Event.readMod m.1])) (p, [])

/-- `"disable" in self.app_config[app] and ... is True` for one app. -/
def isDisabled (cfg : Config) (app : String) : Except PyErr Bool :=
  match alookup cfg app with
  | none => Except.error PyErr.keyError
  | some v => disableKey v

/-- The initialize phase (lines 641-671): one priority ordering, two
passes over it.  Pass one constructs every non-disabled app
(`init_object`), with each app's failure caught and logged; then the
thread pins are recomputed once; then pass two calls every non-disabled
app's initialize hook (`initialize_app`), whose disabled-check is not
shielded by a per-app handler. -/
def initPass1Item (cfg : Config) (a : String) : Event :=
  match isDisabled cfg a with
  | .error _ => Event.appError a
  | .ok true => Event.disabledSkip a
  | .ok false => Event.construct a

def initPass2Item (cfg : Config) (a : String) : Except PyErr Event := do
  let d ← isDisabled cfg a
  pure (if d then Event.noInit a else Event.callInit a)

def initPhase (cfg : Config) (p : Option Plan) :
    Except PyErr (List Event) :=
  match p with
  | none => pure []
  | some pl =>
    if pl.init.isEmpty then pure []
    else do
      let prio ← get_app_deps_and_prios cfg pl.init
      let pass1 := (sortAsc prio).map (initPass1Item cfg)
      let pass2 ← (sortAsc prio).mapM (initPass2Item cfg)
      pure (pass1 ++ [Event.pinThreads] ++ pass2)

/-- `check_app_updates` (lines 486-682), with the plugin argument and a
`loadFails` oracle for the external module loader.  Returns the final
state, the final plan and the event trace; an uncaught Python error
(`TypeError` on a `None` plan, or a field access on a list-valued entry)
aborts the whole call. -/
def check_app_updates (fs : FS) (st : AMState) (plugin : Option String)
    (loadFails : List MPath) :
    Except PyErr (AMState × Option Plan × List Event) := do
  let cc := check_config fs st
  let sm := scanModules fs cc.2.1
  let cfg := sm.2.2.app_config
  let p1 ← deletedModulesPhase cfg sm.2.1 cc.1
  let p2 ← modulesPhase cfg sm.1 p1
  let p3 ← pluginPhase cfg plugin p2
  let tp ← termPhase cfg p3 sm.2.2.objects
  let lp ← loadPhase cfg sm.1 loadFails p3
  let ev4 ← initPhase cfg lp.1
  pure ({ sm.2.2 with objects := tp.2 }, lp.1,
    cc.2.2 ++ tp.1 ++ lp.2 ++ ev4)

def pxC5 : MPath := ⟨"/apps", "mod1", "py"⟩

/-- Failing input for C5: an app on module `mod1` plus a `global_modules`
entry; `mod1.py` was modified and its reload raises. -/
def stC5 : AMState :=
  ⟨10, some ["/apps/a.yaml"],
   [("app1", .app { module := "mod1", klass := "C1" }),
    ("global_modules", .gm ["gmod"])],
   [(pxC5, 1)], ["app1"]⟩

def fsC5 : FS := ⟨[("/apps/a.yaml", 5, some [])], [(pxC5, 2)]⟩

/-- C4 failing input: one config document, newly modified, whose parse
fails (`read_config_file` returns `None`). -/
def stC4 : AMState :=
  ⟨0, some ["/apps/a.yaml"], [("a1", .app { module := "m", klass := "K" })],
   [], ["a1"]⟩

def fsC4 : FS := ⟨[("/apps/a.yaml", 5, none)], []⟩

def pxC10 : MPath := ⟨"/apps", "x", "py"⟩

/-- C10 counterexample input: a previously listed config file disappears
and the whole config directory is empty, so `check_config` returns no
plan; meanwhile a new module `x.py` appears, but no app uses module
`x`. -/
def stC10 : AMState := ⟨0, some ["gone.yaml"], [], [], []⟩

def fsC10 : FS := ⟨[], [(pxC10, 1)]⟩

def pxC10w : MPath := ⟨"/apps", "mx", "py"⟩

/-- C10 witness input: `check_config` again returns no plan, but the
modified module `mx.py` is used by `app1`. -/
def stC10w : AMState :=
  ⟨0, some ["gone.yaml"],
   [("app1", .app { module := "mx", klass := "K" })],
   [(pxC10w, 1)], ["app1"]⟩

def fsC10w : FS := ⟨[], [(pxC10w, 2)]⟩

/-- C3 witness input: two apps on the same module, the second disabled. -/
def cfgC3 : Config :=
  [("a1", .app { module := "m", klass := "K" }),
   ("a2", .app { module := "m", klass := "K", disable := some true })]

def plC3 : Plan := ⟨["a1", "a2"], [], 2⟩

def evC3 : List Event := (initPhase cfgC3 (some plC3)).toOption.getD []

/-- C7 witness input: `A` deleted, `B` unchanged and still declaring a
dependency on `A`. -/
def vAC7 : ConfigVal := .app { module := "m", klass := "K" }

def vBC7 : ConfigVal :=
  .app { module := "m", klass := "K", dependencies := some ["A"] }

def oldC7 : Config := [("A", vAC7), ("B", vBC7)]

def newC7 : Config := [("B", vBC7)]

/-- C8 counterexample input: a fresh state and a directory holding one
new config document (declaring app `a1`) and one new module file. -/
def stC8 : AMState := ⟨0, none, [], [], []⟩

def fsC8 : FS :=
  ⟨[("/apps/a.yaml", 5,
     some [("a1", some (RawVal.table
       { module := some "m", klass := some "K" }))])],
   [(⟨"/apps", "m", "py"⟩, 3)]⟩

def r1C8 : AMState × Option Plan × List Event :=
  (check_app_updates fsC8 stC8 none []).toOption.getD (stC8, none, [])

/-- In a list with distinct keys, a key determines its value. -/
theorem keys_nodup_unique {α : Type} {l : List (String × α)} {k : String}
    {a b : α} (hnd : (l.map Prod.fst).Nodup)
    (ha : (k, a) ∈ l) (hb : (k, b) ∈ l) : a = b := by
  induction l with
  | nil => cases ha
  | cons p rest ih =>
    obtain ⟨pk, pv⟩ := p
    simp only [List.map_cons, List.nodup_cons] at hnd
    rcases List.mem_cons.mp ha with h1 | h1 <;>
      rcases List.mem_cons.mp hb with h2 | h2
    · cases h1; cases h2; rfl
    · cases h1; exact absurd (List.mem_map_of_mem Prod.fst h2) hnd.1
    · cases h2; exact absurd (List.mem_map_of_mem Prod.fst h1) hnd.1
    · exact ih hnd.2 h1 h2

/-- Unfolding of `runPass` when the head entry is emitted. -/
theorem runPass_cons_pos {em name deps rest}
    (h : (deps.filter (fun d => decide (d ∉ em))).isEmpty = true) :
    runPass em ((name, deps) :: rest) =
      ((runPass (em ++ [name]) rest).1,
       name :: (runPass (em ++ [name]) rest).2) := by
  simp only [runPass]
  rw [if_pos h]

/-- Unfolding of `runPass` when the head entry stays pending. -/
theorem runPass_cons_neg {em name deps rest}
    (h : ¬ (deps.filter (fun d => decide (d ∉ em))).isEmpty = true) :
    runPass em ((name, deps) :: rest) =
      ((name, deps.filter (fun d => decide (d ∉ em))) :: (runPass em rest).1,
       (runPass em rest).2) := by
  simp only [runPass]
  rw [if_neg h]

/-! ### Lemmas about one pass of the sort -/
/-- A pass splits its input: every entry is either kept or emitted. -/
theorem runPass_length (em : List String)
    (l : List (String × List String)) :
    (runPass em l).1.length + (runPass em l).2.length = l.length := by
  induction l generalizing em with
  | nil => simp [runPass]
  | cons p rest ih =>
    obtain ⟨name, deps⟩ := p
    by_cases h : (deps.filter (fun d => decide (d ∉ em))).isEmpty = true
    · rw [runPass_cons_pos h]
      have := ih (em ++ [name])
      simp only [List.length_cons]
      omega
    · rw [runPass_cons_neg h]
      have := ih em
      simp only [List.length_cons]
      omega

/-- The names of a pass's input are, up to order, the emitted names
followed by the names still pending. -/
theorem runPass_perm (em : List String)
    (l : List (String × List String)) :
    (l.map Prod.fst).Perm
      ((runPass em l).2 ++ (runPass em l).1.map Prod.fst) := by
  induction l generalizing em with
  | nil => simp [runPass]
  | cons p rest ih =>
    obtain ⟨name, deps⟩ := p
    by_cases h : (deps.filter (fun d => decide (d ∉ em))).isEmpty = true
    · rw [runPass_cons_pos h]
      simpa using (ih (em ++ [name])).cons name
    · rw [runPass_cons_neg h]
      simp only [List.map_cons]
      exact ((ih em).cons name).trans List.perm_middle.symm

/-- Characterization of the entries still pending after a pass: each stems
from an input entry with the same name; its stored dependencies are a
subset of the input entry's, none of them satisfied by `em`, and every
input dependency that disappeared was in `em` or was emitted this pass. -/
theorem runPass_pending (em : List String)
    (l : List (String × List String)) :
    ∀ p ∈ (runPass em l).1, ∃ ds, (p.1, ds) ∈ l ∧
      (∀ d ∈ p.2, d ∈ ds) ∧
      (∀ d ∈ ds, d ∈ p.2 ∨ d ∈ em ∨ d ∈ (runPass em l).2) ∧
      (∀ d ∈ p.2, d ∉ em) := by
  induction l generalizing em with
  | nil => simp [runPass]
  | cons q rest ih =>
    obtain ⟨name, deps⟩ := q
    by_cases h : (deps.filter (fun d => decide (d ∉ em))).isEmpty = true
    · rw [runPass_cons_pos h]
      intro p hp
      obtain ⟨ds, hmem, hsub, hcover, hnem⟩ := ih (em ++ [name]) p hp
      refine ⟨ds, List.mem_cons_of_mem _ hmem, hsub, ?_, ?_⟩
      · intro d hd
        rcases hcover d hd with h1 | h1 | h1
        · exact Or.inl h1
        · rcases List.mem_append.mp h1 with h2 | h2
          · exact Or.inr (Or.inl h2)
          · simp only [List.mem_singleton] at h2
            exact Or.inr (Or.inr (h2 ▸ List.mem_cons_self _ _))
        · exact Or.inr (Or.inr (List.mem_cons_of_mem _ h1))
      · intro d hd hdem
        exact hnem d hd (List.mem_append.mpr (Or.inl hdem))
    · rw [runPass_cons_neg h]
      intro p hp
      rcases List.mem_cons.mp hp with h1 | h1
      · subst h1
        refine ⟨deps, List.mem_cons_self _ _, ?_, ?_, ?_⟩
        · intro d hd; exact List.mem_of_mem_filter hd
        · intro d hd
          by_cases hin : d ∈ em
          · exact Or.inr (Or.inl hin)
          · exact Or.inl (List.mem_filter.mpr ⟨hd, by simpa using hin⟩)
        · intro d hd
          have := List.of_mem_filter hd
          simpa using this
      · obtain ⟨ds, hmem, hsub, hcover, hnem⟩ := ih em p h1
        exact ⟨ds, List.mem_cons_of_mem _ hmem, hsub, hcover, hnem⟩

/-- Every name a pass emits is justified: its entry's stored dependencies
were all already in `em` or emitted earlier in the same pass. -/
theorem runPass_emit_justified (em : List String)
    (l : List (String × List String)) :
    ∀ pre n post, (runPass em l).2 = pre ++ n :: post →
      ∃ ds, (n, ds) ∈ l ∧ ∀ d ∈ ds, d ∈ em ∨ d ∈ pre := by
  induction l generalizing em with
  | nil => intro pre n post h; simp [runPass] at h
  | cons q rest ih =>
    obtain ⟨name, deps⟩ := q
    by_cases h : (deps.filter (fun d => decide (d ∉ em))).isEmpty = true
    · rw [runPass_cons_pos h]
      intro pre n post heq
      simp only at heq
      cases pre with
      | nil =>
        simp only [List.nil_append, List.cons.injEq] at heq
        obtain ⟨rfl, -⟩ := heq
        refine ⟨deps, List.mem_cons_self _ _, ?_⟩
        intro d hd
        left
        rw [List.isEmpty_iff] at h
        have := List.filter_eq_nil_iff.mp h d hd
        simpa using this
      | cons name2 pre2 =>
        simp only [List.cons_append, List.cons.injEq] at heq
        obtain ⟨rfl, heq2⟩ := heq
        obtain ⟨ds, hmem, hcover⟩ := ih (em ++ [name]) pre2 n post heq2
        refine ⟨ds, List.mem_cons_of_mem _ hmem, ?_⟩
        intro d hd
        rcases hcover d hd with h1 | h1
        · rcases List.mem_append.mp h1 with h2 | h2
          · exact Or.inl h2
          · simp only [List.mem_singleton] at h2
            exact Or.inr (h2 ▸ List.mem_cons_self _ _)
        · exact Or.inr (List.mem_cons_of_mem _ h1)
    · rw [runPass_cons_neg h]
      intro pre n post heq
      obtain ⟨ds, hmem, hcover⟩ := ih em pre n post heq
      exact ⟨ds, List.mem_cons_of_mem _ hmem, hcover⟩

/-! ### Lemmas about the sort loop -/
theorem topoLoop_nil (fuel : Nat) (em : List String) :
    topoLoop fuel em [] = ([], false) := by
  cases fuel <;> simp [topoLoop]

theorem topoLoop_stuck {fuel : Nat} {em : List String}
    {pending : List (String × List String)}
    (hp : ¬ pending.isEmpty = true)
    (h : (runPass em pending).2.isEmpty = true) :
    topoLoop (fuel + 1) em pending = ([], true) := by
  simp only [topoLoop]
  rw [if_neg hp, if_pos h]

theorem topoLoop_step {fuel : Nat} {em : List String}
    {pending : List (String × List String)}
    (hp : ¬ pending.isEmpty = true)
    (h : ¬ (runPass em pending).2.isEmpty = true) :
    topoLoop (fuel + 1) em pending =
      ((runPass em pending).2 ++
         (topoLoop fuel (runPass em pending).2 (runPass em pending).1).1,
       (topoLoop fuel (runPass em pending).2 (runPass em pending).1).2) := by
  simp only [topoLoop]
  rw [if_neg hp, if_neg h]

theorem ordOk_nil (src : List (String × List String)) : OrdOk src [] := by
  intro l1 n l2 h
  cases l1 <;> simp at h

/-- Extending an order that respects the dependencies by a block of names
each of which is justified by the time it appears. -/
theorem ordOk_append {src : List (String × List String)}
    {acc ne : List String} (hacc : OrdOk src acc)
    (hjust : ∀ pre n post, ne = pre ++ n :: post →
      ∀ ds, (n, ds) ∈ src → ∀ d ∈ ds, d ∈ acc ++ pre) :
    OrdOk src (acc ++ ne) := by
  intro l1 n l2 heq ds hds d hd
  rcases List.append_eq_append_iff.mp heq with ⟨a2, ha1, ha2⟩ | ⟨c2, hc1, hc2⟩
  · rw [ha1]
    exact hjust a2 n l2 ha2 ds hds d hd
  · cases c2 with
    | nil =>
      simp only [List.append_nil] at hc1
      have h0 : ne = n :: l2 := by simpa using hc2.symm
      have := hjust [] n l2 h0 ds hds d hd
      simp only [List.append_nil] at this
      exact hc1 ▸ this
    | cons c ct =>
      simp only [List.cons_append, List.cons.injEq] at hc2
      obtain ⟨rfl, -⟩ := hc2
      exact hacc l1 n ct hc1 ds hds d hd

/-- If an acyclic specification covers all pending entries, some pending
entry has no dependency among the pending names. -/
theorem exists_ready_entry (src : List (String × List String))
    (hacyc : ¬ HasCycle src)
    (pending : List (String × List String)) (hne : pending ≠ [])
    (hrel : ∀ p ∈ pending, ∃ ds, (p.1, ds) ∈ src ∧ ∀ d ∈ p.2, d ∈ ds) :
    ∃ p ∈ pending, ∀ d ∈ p.2, d ∉ pending.map Prod.fst := by
  classical
  set S := {x : String // x ∈ src.map Prod.fst} with hS
  let r : S → S → Prop := fun x m => Edg src m.1 x.1
  have proj : ∀ a b : S, Relation.TransGen r a b →
      Relation.TransGen (Edg src) b.1 a.1 := by
    intro a b h
    induction h with
    | single h => exact Relation.TransGen.single h
    | tail h1 h2 ih => exact Relation.TransGen.head h2 ih
  haveI : IsIrrefl S (Relation.TransGen r) :=
    ⟨fun a h => hacyc ⟨a.1, proj a a h⟩⟩
  have wfT : WellFounded (Relation.TransGen r) :=
    Finite.wellFounded_of_trans_of_irrefl _
  have wf : WellFounded r :=
    Subrelation.wf (fun h => Relation.TransGen.single h) wfT
  have hnames : ∀ p ∈ pending, p.1 ∈ src.map Prod.fst := by
    intro p hp
    obtain ⟨ds, hds, -⟩ := hrel p hp
    exact List.mem_map.mpr ⟨(p.1, ds), hds, rfl⟩
  obtain ⟨p0, hp0⟩ := List.exists_mem_of_ne_nil pending hne
  obtain ⟨m, hmPS, hmin⟩ := wf.has_min
      {x : S | x.1 ∈ pending.map Prod.fst}
      ⟨⟨p0.1, hnames p0 hp0⟩, List.mem_map.mpr ⟨p0, hp0, rfl⟩⟩
  obtain ⟨q, hq, hq1⟩ := List.mem_map.mp hmPS
  refine ⟨q, hq, ?_⟩
  intro d hd hdpend
  have hdsrc : d ∈ src.map Prod.fst := by
    obtain ⟨q2, hq2, hq21⟩ := List.mem_map.mp hdpend
    exact hq21 ▸ hnames q2 hq2
  have hedge : Edg src m.1 d := by
    obtain ⟨ds, hds, hsub⟩ := hrel q hq
    exact ⟨ds, hq1 ▸ hds, hsub d hd⟩
  exact hmin ⟨d, hdsrc⟩ hdpend hedge

/-- Progress: if some pending entry has all its stored dependencies in
`em`, the pass emits at least one name. -/
theorem runPass_progress (em : List String)
    (l : List (String × List String))
    (h : ∃ p ∈ l, ∀ d ∈ p.2, d ∈ em) :
    (runPass em l).2 ≠ [] := by
  induction l generalizing em with
  | nil => simp at h
  | cons q rest ih =>
    obtain ⟨name, deps⟩ := q
    by_cases hh : (deps.filter (fun d => decide (d ∉ em))).isEmpty = true
    · rw [runPass_cons_pos hh]
      simp
    · rw [runPass_cons_neg hh]
      obtain ⟨p, hp, hpd⟩ := h
      rcases List.mem_cons.mp hp with h1 | h1
      · exfalso
        apply hh
        rw [List.isEmpty_iff, List.filter_eq_nil_iff]
        intro d hd
        subst h1
        simpa using hpd d hd
      · exact ih em ⟨p, h1, hpd⟩

/-! ## Correctness of the sort loop -/
/-- Master invariant lemma for `topoLoop`.  `acc` is the list of names
already yielded, `em` the previous pass's emissions.  The invariants say:
there is enough fuel; together, `acc` and the pending names are the
specification's names; `em` is contained in `acc`; a pending stored
dependency already in `acc` must be in `em` (it would otherwise have been
filtered); every pending entry stems from a specification entry whose
missing dependencies are all in `acc`; and `acc` respects the
specification.  The conclusions: the whole output respects the
specification; on success it enumerates exactly the specification's
names; and on an acyclic specification the loop never reports a cycle. -/
theorem topoLoop_main (src : List (String × List String))
    (hsrcnd : (src.map Prod.fst).Nodup)
    (hclosed : ∀ p ∈ src, ∀ d ∈ p.2, d ∈ src.map Prod.fst) :
    ∀ (fuel : Nat) (pending : List (String × List String))
      (acc em : List String),
      pending.length < fuel →
      (acc ++ pending.map Prod.fst).Perm (src.map Prod.fst) →
      (∀ x ∈ em, x ∈ acc) →
      (∀ p ∈ pending, ∀ d ∈ p.2, d ∈ acc → d ∈ em) →
      (∀ p ∈ pending, ∃ ds, (p.1, ds) ∈ src ∧ (∀ d ∈ p.2, d ∈ ds) ∧
        (∀ d ∈ ds, d ∈ p.2 ∨ d ∈ acc)) →
      OrdOk src acc →
      OrdOk src (acc ++ (topoLoop fuel em pending).1) ∧
      ((topoLoop fuel em pending).2 = false →
        (acc ++ (topoLoop fuel em pending).1).Perm (src.map Prod.fst)) ∧
      (¬ HasCycle src → (topoLoop fuel em pending).2 = false) := by
  intro fuel
  induction fuel with
  | zero => intro pending acc em hfuel; omega
  | succ fuel ih =>
    intro pending acc em hfuel hperm hem hI2 hI3 hOrd
    by_cases hp : pending.isEmpty = true
    · rw [List.isEmpty_iff] at hp
      subst hp
      rw [topoLoop_nil]
      refine ⟨by simpa using hOrd, fun _ => by simpa using hperm, fun _ => rfl⟩
    · have hpne : pending ≠ [] := by
        intro h; rw [h] at hp; simp at hp
      by_cases hstuck : (runPass em pending).2.isEmpty = true
      · -- a pass emitted nothing: the ValueError branch
        rw [topoLoop_stuck hp hstuck]
        refine ⟨by simpa using hOrd, by simp, ?_⟩
        intro hacyc
        exfalso
        obtain ⟨q, hq, hqready⟩ := exists_ready_entry src hacyc pending hpne
          (fun p hp => by
            obtain ⟨ds, h1, h2, -⟩ := hI3 p hp
            exact ⟨ds, h1, h2⟩)
        apply runPass_progress em pending ⟨q, hq, ?_⟩
        · rw [List.isEmpty_iff] at hstuck
          exact hstuck
        · intro d hd
          have hdnp : d ∉ pending.map Prod.fst := hqready d hd
          obtain ⟨ds, hds, hsub, -⟩ := hI3 q hq
          have hdsrc : d ∈ src.map Prod.fst :=
            hclosed (q.1, ds) hds d (hsub d hd)
          have : d ∈ acc ++ pending.map Prod.fst := hperm.symm.subset hdsrc
          rcases List.mem_append.mp this with h1 | h1
          · exact hI2 q hq d hd h1
          · exact absurd h1 hdnp
      · -- at least one name emitted: recurse
        rw [topoLoop_step hp hstuck]
        have hlen := runPass_length em pending
        have hne2 : (runPass em pending).2 ≠ [] := by
          intro h; rw [h] at hstuck; simp at hstuck
        have hlen2 : (runPass em pending).1.length < fuel := by
          have : (runPass em pending).2.length ≠ 0 :=
            fun h => hne2 (List.length_eq_zero.mp h)
          omega
        have hperm2 : ((acc ++ (runPass em pending).2) ++
            (runPass em pending).1.map Prod.fst).Perm (src.map Prod.fst) := by
          rw [List.append_assoc]
          exact (((runPass_perm em pending).symm).append_left acc).trans hperm
        have hpendnd : (acc ++ pending.map Prod.fst).Nodup :=
          hperm.symm.nodup hsrcnd
        have hOrd2 : OrdOk src (acc ++ (runPass em pending).2) := by
          refine ordOk_append hOrd ?_
          intro pre n post heq ds2 hds2 d hd
          obtain ⟨dsp, hdsp, hcover⟩ := runPass_emit_justified em pending pre n post heq
          obtain ⟨dss, hdss, hsubss, hcovss⟩ := hI3 (n, dsp) hdsp
          have hsame : ds2 = dss := keys_nodup_unique hsrcnd hds2 hdss
          subst hsame
          rcases hcovss d hd with h1 | h1
          · rcases hcover d h1 with h2 | h2
            · exact List.mem_append.mpr (Or.inl (hem d h2))
            · exact List.mem_append.mpr (Or.inr h2)
          · exact List.mem_append.mpr (Or.inl h1)
        have hmain := ih (runPass em pending).1 (acc ++ (runPass em pending).2)
          (runPass em pending).2 hlen2 hperm2
          (fun x hx => List.mem_append.mpr (Or.inr hx))
          (fun p hpp d hd hdin => by
            obtain ⟨dsp, hdsp, hsubp, hcovp, hnem⟩ := runPass_pending em pending p hpp
            rcases List.mem_append.mp hdin with h1 | h1
            · exfalso
              obtain ⟨dss, hdss, hsubss, hcovss⟩ := hI3 (p.1, dsp) hdsp
              have : d ∈ em := hI2 (p.1, dsp) hdsp d (hsubp d hd) h1
              exact hnem d hd this
            · exact h1)
          (fun p hpp => by
            obtain ⟨dsp, hdsp, hsubp, hcovp, hnem⟩ := runPass_pending em pending p hpp
            obtain ⟨dss, hdss, hsubss, hcovss⟩ := hI3 (p.1, dsp) hdsp
            refine ⟨dss, hdss, fun d hd => hsubss d (hsubp d hd), ?_⟩
            intro d hd
            rcases hcovss d hd with h1 | h1
            · rcases hcovp d h1 with h2 | h2 | h2
              · exact Or.inl h2
              · exact Or.inr (List.mem_append.mpr (Or.inl (hem d h2)))
              · exact Or.inr (List.mem_append.mpr (Or.inr h2))
            · exact Or.inr (List.mem_append.mpr (Or.inl h1)))
          hOrd2
        refine ⟨?_, ?_, ?_⟩
        · rw [← List.append_assoc]
          exact hmain.1
        · intro herr
          rw [← List.append_assoc]
          exact hmain.2.1 herr
        · exact hmain.2.2

/-- Instantiation of the master lemma at the entry point of
`topological_sort`. -/
theorem topological_sort_correct (src : List (String × List String))
    (hsrcnd : (src.map Prod.fst).Nodup)
    (hclosed : ∀ p ∈ src, ∀ d ∈ p.2, d ∈ src.map Prod.fst) :
    OrdOk src (topological_sort src).1 ∧
    ((topological_sort src).2 = false →
      ((topological_sort src).1).Perm (src.map Prod.fst)) ∧
    (¬ HasCycle src → (topological_sort src).2 = false) := by
  have h := topoLoop_main src hsrcnd hclosed (src.length + 1) src [] []
    (by omega) (by simp) (by simp) (by simp)
    (fun p hp => ⟨p.2, by simpa using hp, fun d hd => hd, fun d hd => Or.inl hd⟩)
    (ordOk_nil src)
  simpa [topological_sort] using h

/-- A run that did not report a cycle certifies that the specification has
no cycle among its (listed) edges whose endpoints are specification
names. -/
theorem ordOk_no_cycle (src : List (String × List String))
    (hsrcnd : (src.map Prod.fst).Nodup) (out : List String)
    (hperm : out.Perm (src.map Prod.fst))
    (hord : OrdOk src out) : ¬ HasCycle src := by
  have key : ∀ (n b : String), Relation.TransGen (Edg src) n b →
      ∀ l1 l2, out = l1 ++ n :: l2 → b ∈ l1 := by
    intro n b h
    induction h with
    | @single b2 h =>
      intro l1 l2 heq
      obtain ⟨ds, hds, hmem⟩ := h
      exact hord l1 n l2 heq ds hds b2 hmem
    | @tail b2 c2 h1 h2 ih =>
      intro l1 l2 heq
      have hb2 : b2 ∈ l1 := ih l1 l2 heq
      obtain ⟨s, t, hst⟩ := List.append_of_mem hb2
      obtain ⟨ds, hds, hmem⟩ := h2
      have hcs : c2 ∈ s := by
        refine hord s b2 (t ++ n :: l2) ?_ ds hds c2 hmem
        rw [heq, hst]
        simp
      rw [hst]
      exact List.mem_append.mpr (Or.inl hcs)
  have hasrc : ∀ x y, Relation.TransGen (Edg src) x y →
      ∃ ds, (x, ds) ∈ src := by
    intro x y h
    induction h with
    | single h => obtain ⟨ds, hds, -⟩ := h; exact ⟨ds, hds⟩
    | tail h1 h2 ih => exact ih
  rintro ⟨a, ha⟩
  obtain ⟨ds0, hds0⟩ := hasrc a a ha
  have hamem : a ∈ out :=
    hperm.symm.subset (List.mem_map.mpr ⟨(a, ds0), hds0, rfl⟩)
  obtain ⟨l1, l2, hdecomp⟩ := List.append_of_mem hamem
  have hal1 : a ∈ l1 := key a a ha l1 l2 hdecomp
  have hnd : out.Nodup := hperm.symm.nodup hsrcnd
  rw [hdecomp] at hnd
  have := List.disjoint_of_nodup_append hnd
  exact this hal1 (List.mem_cons_self a l2)

/-- C1: for every dependency specification with distinct app names, no
cycles, and all (valid) dependencies drawn from the app set,
`topological_sort` finishes without the cyclic-dependency error, emits
every app exactly once (the output is a duplicate-free permutation of the
app names), and emits each app only after all of its dependencies. -/
theorem C1_topological_sort_acyclic (src : List (String × List String))
    (hnd : (src.map Prod.fst).Nodup)
    (hclosed : ∀ p ∈ src, ∀ d ∈ p.2, d ∈ src.map Prod.fst)
    (hacyc : ¬ HasCycle src) :
    (topological_sort src).2 = false ∧
    ((topological_sort src).1).Perm (src.map Prod.fst) ∧
    ((topological_sort src).1).Nodup ∧
    OrdOk src (topological_sort src).1 := by
  obtain ⟨hord, hperm, hcomplete⟩ := topological_sort_correct src hnd hclosed
  have herr := hcomplete hacyc
  have hp := hperm herr
  exact ⟨herr, hp, hp.symm.nodup hnd, hord⟩

theorem srcW_acyclic : ¬ HasCycle srcW := by
  have hedge : ∀ x y, Edg srcW x y → rankW y < rankW x := by
    rintro x y ⟨ds, hds, hmem⟩
    simp only [srcW, List.mem_cons, List.mem_singleton, Prod.mk.injEq,
      List.not_mem_nil, or_false] at hds
    rcases hds with ⟨rfl, rfl⟩ | ⟨rfl, rfl⟩ | ⟨rfl, rfl⟩
    · simp at hmem
    · have hy : y = "A" := by simpa using hmem
      subst hy; decide
    · have hy : y = "A" ∨ y = "B" := by simpa using hmem
      rcases hy with rfl | rfl <;> decide
  have htrans : ∀ x y, Relation.TransGen (Edg srcW) x y →
      rankW y < rankW x := by
    intro x y h
    induction h with
    | single h => exact hedge _ _ h
    | tail h1 h2 ih => exact (hedge _ _ h2).trans ih
  rintro ⟨a, ha⟩
  exact absurd (htrans a a ha) (lt_irrefl _)

theorem C1_witness :
    ((srcW.map Prod.fst).Nodup ∧ ¬ HasCycle srcW) ∧
    ((topological_sort srcW).2 = false ∧
     ((topological_sort srcW).1).Perm (srcW.map Prod.fst) ∧
     ((topological_sort srcW).1).Nodup ∧
     OrdOk srcW (topological_sort srcW).1) :=
  ⟨⟨by decide, srcW_acyclic⟩,
   C1_topological_sort_acyclic srcW (by decide) (by decide) srcW_acyclic⟩

/-! ## The priority map under a cyclic configuration -/
theorem except_bind_ok {α β : Type} (a : α) (f : α → Except PyErr β) :
    (Except.ok a >>= f) = f a := rfl

theorem except_bind_error {α β : Type} (e : PyErr)
    (f : α → Except PyErr β) :
    ((Except.error e : Except PyErr α) >>= f) = Except.error e := rfl

theorem except_pure_bind {α β : Type} (a : α) (f : α → Except PyErr β) :
    ((pure a : Except PyErr α) >>= f) = f a := rfl

theorem except_pure_eq_ok {α : Type} (a : α) :
    (pure a : Except PyErr α) = Except.ok a := rfl

theorem alookup_eq_none {α : Type} {l : List (String × α)} {k : String}
    (h : k ∉ l.map Prod.fst) : alookup l k = none := by
  induction l with
  | nil => rfl
  | cons p rest ih =>
    obtain ⟨pk, pv⟩ := p
    simp only [List.map_cons, List.mem_cons, not_or] at h
    have hne : ¬ pk = k := fun hh => h.1 hh.symm
    simp only [alookup, if_neg hne]
    exact ih h.2

theorem alookup_isSome_iff (l : List (String × ConfigVal)) (k : String) :
    (alookup l k).isSome = true ↔ k ∈ l.map Prod.fst := by
  induction l with
  | nil => simp [alookup]
  | cons p rest ih =>
    obtain ⟨pk, pv⟩ := p
    by_cases h : pk = k
    · simp [alookup, h]
    · simp only [alookup, if_neg h, List.map_cons, List.mem_cons, ih]
      constructor
      · exact Or.inr
      · rintro (rfl | hmem)
        · exact absurd rfl h
        · exact hmem

theorem validDeps_subset {cfg : Config} {app : String} {ds : List String}
    (h : validDeps cfg app = .ok ds) :
    ∀ d ∈ ds, d ∈ cfg.map Prod.fst := by
  intro d hd
  unfold validDeps at h
  split at h
  · exact absurd h (by simp)
  · split at h
    · exact absurd h (by simp)
    · simp only [Except.ok.injEq] at h
      subst h
      simp at hd
    · simp only [Except.ok.injEq] at h
      subst h
      have := List.of_mem_filter hd
      rw [← alookup_isSome_iff cfg d]
      simpa using this

theorem buildDepSpec_parts (cfg : Config) :
    ∀ (apps : List String) (spec : List (String × List String)),
      (apps.mapM (fun app => do
        let ds ← validDeps cfg app
        pure (app, ds)) = Except.ok spec) →
      spec.map Prod.fst = apps ∧
      ∀ p ∈ spec, validDeps cfg p.1 = .ok p.2 := by
  intro apps
  induction apps with
  | nil =>
    intro spec h
    simp only [List.mapM_nil, pure, Except.pure, Except.ok.injEq] at h
    subst h
    simp
  | cons a rest ih =>
    intro spec h
    rw [List.mapM_cons] at h
    rcases hv : validDeps cfg a with e | ds
    · simp only [hv, except_bind_error, except_bind_ok, except_pure_bind] at h
      exact absurd h (by simp)
    · simp only [hv, except_bind_error, except_bind_ok, except_pure_bind] at h
      rcases hrest : rest.mapM (fun app => do
          let ds ← validDeps cfg app
          pure (app, ds)) with e2 | spec2
      · simp only [hrest, except_bind_error] at h
        exact absurd h (by simp)
      · simp only [hrest, except_bind_ok] at h
        have hs : (a, ds) :: spec2 = spec := by
          simpa [except_pure_eq_ok] using h
        subst hs
        obtain ⟨hkeys, hall⟩ := ih spec2 hrest
        refine ⟨by simp [hkeys], ?_⟩
        intro p hp
        rcases List.mem_cons.mp hp with rfl | hp2
        · exact hv
        · exact hall p hp2

theorem buildDepSpec_keys {cfg : Config} {spec : List (String × List String)}
    (h : buildDepSpec cfg = .ok spec) :
    spec.map Prod.fst = cfg.map Prod.fst :=
  (buildDepSpec_parts cfg (cfg.map Prod.fst) spec h).1

theorem buildDepSpec_closed {cfg : Config} {spec : List (String × List String)}
    (h : buildDepSpec cfg = .ok spec) :
    ∀ p ∈ spec, ∀ d ∈ p.2, d ∈ spec.map Prod.fst := by
  intro p hp d hd
  obtain ⟨hkeys, hall⟩ := buildDepSpec_parts cfg (cfg.map Prod.fst) spec h
  rw [hkeys]
  exact validDeps_subset (hall p hp) d hd

theorem prioAssignStep_shape (cfg : Config) (st : List (String × Prio) × Prio)
    (app : String) (out : List (String × Prio) × Prio)
    (h : prioAssignStep cfg st app = .ok out) :
    ∃ q, out.1 = st.1 ++ [(app, q)] := by
  unfold prioAssignStep at h
  split at h
  · exact absurd h (by simp)
  · split at h
    · exact absurd h (by simp)
    · simp only [Except.ok.injEq] at h
      exact ⟨st.2, by rw [← h]⟩
    · split at h
      · exact absurd h (by simp)
      · simp only [Except.ok.injEq] at h
        exact ⟨_, by rw [← h]⟩
      · simp only [Except.ok.injEq] at h
        exact ⟨defaultPrio, by rw [← h]⟩

theorem assignPrios_fold_keys (cfg : Config) :
    ∀ (em : List String) (st out : List (String × Prio) × Prio),
      em.foldlM (prioAssignStep cfg) st = .ok out →
      out.1.map Prod.fst = st.1.map Prod.fst ++ em := by
  intro em
  induction em with
  | nil =>
    intro st out h
    simp only [List.foldlM_nil, pure, Except.pure, Except.ok.injEq] at h
    subst h
    simp
  | cons a rest ih =>
    intro st out h
    rw [List.foldlM_cons] at h
    rcases hstep : prioAssignStep cfg st a with e | st1
    · simp only [hstep, except_bind_error] at h
      exact absurd h (by simp)
    · simp only [hstep, except_bind_ok] at h
      obtain ⟨q, hq⟩ := prioAssignStep_shape cfg st a st1 hstep
      have := ih st1 out h
      rw [this, hq]
      simp

/-- On success, the priority loop assigns one entry per emitted name, in
emission order. -/
theorem assignPrios_keys {cfg : Config} {em : List String}
    {pa : List (String × Prio)} (h : assignPrios cfg em = .ok pa) :
    pa.map Prod.fst = em := by
  unfold assignPrios at h
  rcases hf : em.foldlM (prioAssignStep cfg) ([], startPrio) with e | out <;>
    rw [hf] at h
  · exact absurd h (by simp [Except.map])
  · simp only [Except.map, Except.ok.injEq] at h
    subst h
    simpa using assignPrios_fold_keys cfg em ([], startPrio) out hf

/-- C2: on a configuration whose validated dependency specification
contains a cycle, `topological_sort` raises the cyclic-dependency
`ValueError` (a pass emits nothing while entries remain pending); the
caller catches it, so the priority map retains assignments for exactly
the names emitted before the error, in emission order; a name that was
not emitted receives no priority and is absent from the final map of
`get_app_deps_and_prios` for that cycle. -/
theorem C2_cycle_prios (cfg : Config) (applist : List String)
    (spec : List (String × List String))
    (hnd : (cfg.map Prod.fst).Nodup)
    (hspec : buildDepSpec cfg = .ok spec)
    (hcyc : HasCycle spec) :
    (topological_sort spec).2 = true ∧
    ∀ pa, assignPrios cfg (topological_sort spec).1 = .ok pa →
      pa.map Prod.fst = (topological_sort spec).1 ∧
      (∀ a, a ∉ (topological_sort spec).1 → alookup pa a = none) ∧
      ∀ res dl, buildDepList cfg applist = .ok dl →
        get_app_deps_and_prios cfg applist = .ok res →
        res = pa.filter (fun p => decide (p.1 ∈ dl)) ∧
        ∀ q ∈ res, q.1 ∈ (topological_sort spec).1 := by
  have hkeys := buildDepSpec_keys hspec
  have hclosed := buildDepSpec_closed hspec
  have hnd2 : (spec.map Prod.fst).Nodup := by rw [hkeys]; exact hnd
  have herr : (topological_sort spec).2 = true := by
    by_contra hferr
    have hferr2 : (topological_sort spec).2 = false := by
      cases hb : (topological_sort spec).2
      · rfl
      · exact absurd hb hferr
    obtain ⟨hord, hperm, -⟩ := topological_sort_correct spec hnd2 hclosed
    exact absurd hcyc (ordOk_no_cycle spec hnd2 _ (hperm hferr2) hord)
  refine ⟨herr, ?_⟩
  intro pa hpa
  have hpakeys := assignPrios_keys hpa
  refine ⟨hpakeys, ?_, ?_⟩
  · intro a ha
    exact alookup_eq_none (by rw [hpakeys]; exact ha)
  · intro res dl hdl hres
    unfold get_app_deps_and_prios at hres
    simp only [hdl, except_bind_ok, hspec, hpa] at hres
    have hr2 : pa.filter (fun p => decide (p.1 ∈ dl)) = res := by
      simpa [except_pure_eq_ok] using hres
    refine ⟨hr2.symm, ?_⟩
    intro q hq
    rw [← hr2] at hq
    rw [← hpakeys]
    exact List.mem_map.mpr ⟨q, List.mem_of_mem_filter hq, rfl⟩

theorem specW2_cycle : HasCycle specW2 := by
  have e1 : Edg specW2 "A" "B" := ⟨["B"], by simp [specW2], by simp⟩
  have e2 : Edg specW2 "B" "A" := ⟨["A"], by simp [specW2], by simp⟩
  exact ⟨"A", Relation.TransGen.tail (Relation.TransGen.single e1) e2⟩

theorem C2_witness :
    ((cfgT2.map Prod.fst).Nodup ∧ buildDepSpec cfgT2 = .ok specW2 ∧
      HasCycle specW2) ∧
    ((topological_sort specW2).2 = true ∧
     ([("C", defaultPrio)].map Prod.fst = (topological_sort specW2).1 ∧
      alookup [("C", defaultPrio)] "A" = none ∧
      (([] : List (String × Prio)) =
        [("C", defaultPrio)].filter (fun p => decide (p.1 ∈ ["A", "B"]))))) := by
  have H := C2_cycle_prios cfgT2 ["A"] specW2 (by decide) (by decide)
    specW2_cycle
  have H2 := H.2 [("C", defaultPrio)] (by decide)
  have H3 := H2.2.2 [] ["A", "B"] (by decide) (by decide)
  exact ⟨⟨by decide, by decide, specW2_cycle⟩,
    H.1, H2.1, H2.2.1 "A" (by decide), H3.1⟩

/-- C6 counterexample: in `cfgT1`, app B declares a dependency on the
non-existent app C.  The claim says B is excluded from that cycle's
priority assignment, yet `get_app_deps_and_prios` returns a map with an
entry for B (the invalid edge was dropped, B itself was kept and got the
first clustered priority). -/
theorem C6_counterexample :
    get_app_deps_and_prios cfgT1 ["B"] = .ok [("B", startPrio)] ∧
    "B" ∈ [("B", startPrio)].map Prod.fst := by decide

/-- C6 amended: a dependency naming a non-existent app is dropped (every
dependency kept in the sort input names a configured app), but the
dependent app is not excluded from priority assignment: whenever the sort
emits it, it receives an entry in the priority map, and that entry is
retained in the final map whenever the app belongs to the
dependent-expansion set of the request. -/
theorem C6_invalid_dep_amended (cfg : Config) (app : String)
    (ds : List String) (spec : List (String × List String))
    (hspec : buildDepSpec cfg = .ok spec)
    (hds : validDeps cfg app = .ok ds) :
    (∀ d ∈ ds, d ∈ cfg.map Prod.fst) ∧
    ∀ pa, assignPrios cfg (topological_sort spec).1 = .ok pa →
      app ∈ (topological_sort spec).1 →
      app ∈ pa.map Prod.fst ∧
      ∀ res dl applist, buildDepList cfg applist = .ok dl →
        get_app_deps_and_prios cfg applist = .ok res →
        app ∈ dl → app ∈ res.map Prod.fst := by
  refine ⟨validDeps_subset hds, ?_⟩
  intro pa hpa hem
  have hpakeys := assignPrios_keys hpa
  have happa : app ∈ pa.map Prod.fst := by rw [hpakeys]; exact hem
  refine ⟨happa, ?_⟩
  intro res dl applist hdl hres hindl
  unfold get_app_deps_and_prios at hres
  simp only [hdl, except_bind_ok, hspec, hpa] at hres
  have hr2 : pa.filter (fun p => decide (p.1 ∈ dl)) = res := by
    simpa [except_pure_eq_ok] using hres
  obtain ⟨p, hp, hp1⟩ := List.mem_map.mp happa
  refine List.mem_map.mpr ⟨p, ?_, hp1⟩
  rw [← hr2]
  exact List.mem_filter.mpr ⟨hp, by simpa [hp1] using hindl⟩

theorem C6_witness :
    (buildDepSpec cfgT1 = .ok [("A", []), ("B", [])] ∧
     validDeps cfgT1 "B" = .ok []) ∧
    ((∀ d ∈ ([] : List String), d ∈ cfgT1.map Prod.fst) ∧
     "B" ∈ [("A", defaultPrio), ("B", startPrio)].map Prod.fst ∧
     "B" ∈ [("B", startPrio)].map Prod.fst) := by
  have H := C6_invalid_dep_amended cfgT1 "B" [] [("A", []), ("B", [])]
    (by decide) (by decide)
  have H2 := H.2 [("A", defaultPrio), ("B", startPrio)] (by decide) (by decide)
  exact ⟨⟨by decide, by decide⟩, H.1, H2.1,
    H2.2 [("B", startPrio)] ["B"] ["B"] (by decide) (by decide) (by decide)⟩

theorem length_filter_mono {l : List String} {p q : String → Bool}
    (himp : ∀ x, p x = true → q x = true) :
    (l.filter p).length ≤ (l.filter q).length := by
  induction l with
  | nil => simp
  | cons x rest ih =>
    rw [List.filter_cons, List.filter_cons]
    by_cases hp : p x = true
    · simp only [hp, himp x hp, if_true, List.length_cons]
      omega
    · by_cases hq : q x = true
      · simp only [hp, hq, if_true, if_false, Bool.false_eq_true,
          List.length_cons]
        omega
      · simp only [hp, hq, Bool.false_eq_true, if_false]
        exact ih

theorem length_filter_lt {l : List String} {p q : String → Bool}
    (himp : ∀ x, p x = true → q x = true) {a : String}
    (ha : a ∈ l) (hpa : p a = false) (hqa : q a = true) :
    (l.filter p).length < (l.filter q).length := by
  induction l with
  | nil => cases ha
  | cons x rest ih =>
    rw [List.filter_cons, List.filter_cons]
    rcases List.mem_cons.mp ha with rfl | hmem
    · simp only [hpa, hqa, if_true, Bool.false_eq_true, if_false,
        List.length_cons]
      exact Nat.lt_succ_of_le (length_filter_mono himp)
    · by_cases hp : p x = true
      · simp only [hp, himp x hp, if_true, List.length_cons]
        exact Nat.succ_lt_succ (ih hmem)
      · by_cases hq : q x = true
        · simp only [hp, hq, if_true, Bool.false_eq_true, if_false,
            List.length_cons]
          exact (ih hmem).trans (Nat.lt_succ_self _)
        · simp only [hp, hq, Bool.false_eq_true, if_false]
          exact ih hmem

theorem slack_append_lt {cfg : Config} {deps : List String} {app : String}
    (happ : app ∈ cfg.map Prod.fst) (hnot : app ∉ deps) :
    slack cfg (deps ++ [app]) < slack cfg deps := by
  refine length_filter_lt ?_ happ ?_ ?_
  · intro x hx
    simp only [decide_eq_true_eq, List.mem_append, List.mem_singleton,
      not_or] at hx ⊢
    exact hx.1
  · simp
  · simpa using hnot

theorem slack_le_of_subset {cfg : Config} {d1 d2 : List String}
    (h : ∀ x ∈ d1, x ∈ d2) : slack cfg d2 ≤ slack cfg d1 := by
  refine length_filter_mono ?_
  intro x hx
  simp only [decide_eq_true_eq] at hx ⊢
  exact fun hx1 => hx (h x hx1)

/-- Master lemma for `get_dependent_apps`: with enough fuel, a successful
call returns a list that contains the input, contains every direct
dependent of the requested app, and is dependency-closed at every name it
added (a name appended by the traversal has all of its own dependents in
the result). -/
theorem gda_main (cfg : Config) :
    ∀ (fuel : Nat) (dependee : String) (deps out : List String),
      slack cfg deps < fuel →
      get_dependent_apps cfg fuel dependee deps = .ok out →
      (∀ x ∈ deps, x ∈ out) ∧
      (∀ y v ds, (y, v) ∈ cfg → depsKey v = .ok (some ds) →
        dependee ∈ ds → y ∈ out) ∧
      (∀ a ∈ out, a ∉ deps →
        ∀ y v ds, (y, v) ∈ cfg → depsKey v = .ok (some ds) →
          a ∈ ds → y ∈ out) := by
  intro fuel
  induction fuel with
  | zero => intro dependee deps out h; omega
  | succ fuel ih =>
    intro dependee deps out hslack hrun
    have scan : ∀ (remaining : Config) (deps2 out2 : List String),
        (∀ p ∈ remaining, p ∈ cfg) →
        slack cfg deps2 < fuel + 1 →
        gdaScan (get_dependent_apps cfg fuel) dependee remaining deps2 =
          .ok out2 →
        (∀ x ∈ deps2, x ∈ out2) ∧
        (∀ y v ds, (y, v) ∈ remaining → depsKey v = .ok (some ds) →
          dependee ∈ ds → y ∈ out2) ∧
        (∀ a ∈ out2, a ∉ deps2 →
          ∀ y v ds, (y, v) ∈ cfg → depsKey v = .ok (some ds) →
            a ∈ ds → y ∈ out2) := by
      intro remaining
      induction remaining with
      | nil =>
        intro deps2 out2 hrem hsl hs
        simp only [gdaScan, Except.ok.injEq] at hs
        subst hs
        refine ⟨fun x hx => hx, by simp, ?_⟩
        intro a ha hnot
        exact absurd ha hnot
      | cons qv rest ih2 =>
        obtain ⟨q, v⟩ := qv
        intro deps2 out2 hrem hsl hs
        have hremr : ∀ p ∈ rest, p ∈ cfg :=
          fun p hp => hrem p (List.mem_cons_of_mem _ hp)
        rcases hk : depsKey v with e | ods
        · simp only [gdaScan, hk] at hs
          exact absurd hs (by simp)
        · rcases ods with _ | ds
          · simp only [gdaScan, hk] at hs
            obtain ⟨h1, h2, h3⟩ := ih2 deps2 out2 hremr hsl hs
            refine ⟨h1, ?_, h3⟩
            intro y vv dss hmem hkk hdep
            rcases List.mem_cons.mp hmem with heq | hmem2
            · obtain ⟨rfl, rfl⟩ := Prod.mk.injEq .. ▸ heq
              rw [hk] at hkk
              exact absurd hkk (by simp)
            · exact h2 y vv dss hmem2 hkk hdep
          · simp only [gdaScan, hk] at hs
            by_cases hcond : dependee ∈ ds ∧ q ∉ deps2
            · rw [if_pos hcond] at hs
              rcases hrec : get_dependent_apps cfg fuel q (deps2 ++ [q])
                  with e | mid
              · rw [hrec] at hs
                exact absurd hs (by simp)
              · rw [hrec] at hs
                have hqkeys : q ∈ cfg.map Prod.fst :=
                  List.mem_map.mpr ⟨(q, v), hrem (q, v) (List.mem_cons_self _ _), rfl⟩
                have hslq : slack cfg (deps2 ++ [q]) < fuel := by
                  have := slack_append_lt hqkeys hcond.2
                  omega
                obtain ⟨G1, G2, G3⟩ := ih q (deps2 ++ [q]) mid hslq hrec
                have hslmid : slack cfg mid < fuel + 1 := by
                  have h1 := @slack_le_of_subset cfg _ _ G1
                  have h2 := slack_append_lt hqkeys hcond.2
                  omega
                obtain ⟨S1, S2, S3⟩ := ih2 mid out2 hremr hslmid hs
                have hdep2out : ∀ x ∈ deps2, x ∈ out2 := fun x hx =>
                  S1 x (G1 x (List.mem_append.mpr (Or.inl hx)))
                have hq_out : q ∈ out2 :=
                  S1 q (G1 q (List.mem_append.mpr (Or.inr (List.mem_singleton.mpr rfl))))
                refine ⟨hdep2out, ?_, ?_⟩
                · intro y vv dss hmem hkk hdepin
                  rcases List.mem_cons.mp hmem with heq | hmem2
                  · obtain ⟨rfl, rfl⟩ := Prod.mk.injEq .. ▸ heq
                    exact hq_out
                  · exact S2 y vv dss hmem2 hkk hdepin
                · intro a ha hnot y vv dss hycfg hkk hads
                  by_cases hamid : a ∈ mid
                  · by_cases haq : a = q
                    · subst haq
                      exact S1 y (G2 y vv dss hycfg hkk hads)
                    · have hanot2 : a ∉ deps2 ++ [q] := by
                        intro hmem3
                        rcases List.mem_append.mp hmem3 with h4 | h4
                        · exact hnot h4
                        · exact haq (List.mem_singleton.mp h4)
                      exact S1 y (G3 a hamid hanot2 y vv dss hycfg hkk hads)
                  · exact S3 a ha hamid y vv dss hycfg hkk hads
            · rw [if_neg hcond] at hs
              obtain ⟨h1, h2, h3⟩ := ih2 deps2 out2 hremr hsl hs
              refine ⟨h1, ?_, h3⟩
              intro y vv dss hmem hkk hdepin
              rcases List.mem_cons.mp hmem with heq | hmem2
              · have h4 : y = q ∧ vv = v := Prod.mk.injEq .. ▸ heq
                rw [h4.2, hk] at hkk
                have hds : ds = dss := by simpa using hkk
                have hq2 : q ∈ deps2 := by
                  by_contra hq3
                  exact hcond ⟨by rw [hds]; exact hdepin, hq3⟩
                rw [h4.1]
                exact h1 q hq2
              · exact h2 y vv dss hmem2 hkk hdepin
    have hrun2 : gdaScan (get_dependent_apps cfg fuel) dependee cfg deps =
        .ok out := hrun
    obtain ⟨h1, h2, h3⟩ := scan cfg deps out (fun p hp => hp) hslack hrun2
    exact ⟨h1, h2, h3⟩

theorem slack_le_len (cfg : Config) (deps : List String) :
    slack cfg deps ≤ cfg.length := by
  have h := List.length_filter_le (fun k => decide (k ∉ deps))
    (cfg.map Prod.fst)
  simpa [slack] using h

/-- The seed loop of `get_app_deps_and_prios` (lines 688-692) produces a
list that contains every requested app and is closed under taking direct
dependents. -/
theorem buildDepList_fold (cfg : Config) :
    ∀ (applist : List String) (d0 out : List String),
      (∀ a ∈ d0, ∀ y v ds, (y, v) ∈ cfg → depsKey v = .ok (some ds) →
        a ∈ ds → y ∈ d0) →
      applist.foldlM (fun deps app =>
        get_dependent_apps cfg (cfg.length + 1) app
          (if app ∈ deps then deps else deps ++ [app])) d0 = .ok out →
      (∀ x ∈ d0, x ∈ out) ∧ (∀ x ∈ applist, x ∈ out) ∧
      (∀ a ∈ out, ∀ y v ds, (y, v) ∈ cfg → depsKey v = .ok (some ds) →
        a ∈ ds → y ∈ out) := by
  intro applist
  induction applist with
  | nil =>
    intro d0 out hcl h
    simp only [List.foldlM_nil, pure, Except.pure, Except.ok.injEq] at h
    subst h
    exact ⟨fun x hx => hx, by simp, hcl⟩
  | cons a rest ih =>
    intro d0 out hcl h
    rw [List.foldlM_cons] at h
    rcases hstep : get_dependent_apps cfg (cfg.length + 1) a
        (if a ∈ d0 then d0 else d0 ++ [a]) with e | d2
    · simp only [hstep, except_bind_error] at h
      exact absurd h (by simp)
    · simp only [hstep, except_bind_ok] at h
      have hsl : slack cfg (if a ∈ d0 then d0 else d0 ++ [a]) <
          cfg.length + 1 :=
        Nat.lt_succ_of_le (slack_le_len cfg _)
      obtain ⟨G1, G2, G3⟩ :=
        gda_main cfg (cfg.length + 1) a
          (if a ∈ d0 then d0 else d0 ++ [a]) d2 hsl hstep
      have hd0d2 : ∀ x ∈ d0, x ∈ d2 := by
        intro x hx
        apply G1
        by_cases hmem : a ∈ d0
        · simpa [hmem] using hx
        · simp only [hmem, if_false, Bool.false_eq_true]
          exact List.mem_append.mpr (Or.inl hx)
      have had2 : a ∈ d2 := by
        apply G1
        by_cases hmem : a ∈ d0
        · rw [if_pos hmem]
          exact hmem
        · simp [hmem]
      have hcl2 : ∀ b ∈ d2, ∀ y v ds, (y, v) ∈ cfg →
          depsKey v = .ok (some ds) → b ∈ ds → y ∈ d2 := by
        intro b hb y v ds hycfg hk hbds
        by_cases hbd1 : b ∈ (if a ∈ d0 then d0 else d0 ++ [a])
        · by_cases hbd0 : b ∈ d0
          · exact hd0d2 y (hcl b hbd0 y v ds hycfg hk hbds)
          · have hba : b = a := by
              by_cases hmem : a ∈ d0
              · rw [if_pos hmem] at hbd1
                exact absurd hbd1 hbd0
              · rw [if_neg hmem] at hbd1
                rcases List.mem_append.mp hbd1 with h4 | h4
                · exact absurd h4 hbd0
                · exact List.mem_singleton.mp h4
            subst hba
            exact G2 y v ds hycfg hk hbds
        · exact G3 b hb hbd1 y v ds hycfg hk hbds
      obtain ⟨R1, R2, R3⟩ := ih d2 out hcl2 h
      refine ⟨fun x hx => R1 x (hd0d2 x hx), ?_, R3⟩
      intro x hx
      rcases List.mem_cons.mp hx with rfl | hx2
      · exact R1 x had2
      · exact R2 x hx2

theorem buildDepList_spec {cfg : Config} {applist out : List String}
    (h : buildDepList cfg applist = .ok out) :
    (∀ x ∈ applist, x ∈ out) ∧
    (∀ a ∈ out, ∀ y v ds, (y, v) ∈ cfg → depsKey v = .ok (some ds) →
      a ∈ ds → y ∈ out) := by
  unfold buildDepList at h
  obtain ⟨-, h2, h3⟩ := buildDepList_fold cfg applist [] out (by simp) h
  exact ⟨h2, h3⟩

/-- C9: the dependent expansion reaches every transitive dependent.  If
`X` is in the requested set and `Y` reaches `X` through the (raw)
dependency chain, then `Y` is in the expansion list; consequently,
whenever `Y` was assigned a priority by the emission loop, `Y` appears in
the map returned by `get_app_deps_and_prios` — so terminating or
reinitializing a changed app also covers every app that transitively
depends on it. -/
theorem C9_transitive_dependents (cfg : Config) (applist : List String)
    (Y X : String) (hX : X ∈ applist)
    (hchain : Relation.ReflTransGen (RawDepEdge cfg) Y X) :
    ∀ dl, buildDepList cfg applist = .ok dl →
      Y ∈ dl ∧
      ∀ spec pa res, buildDepSpec cfg = .ok spec →
        assignPrios cfg (topological_sort spec).1 = .ok pa →
        get_app_deps_and_prios cfg applist = .ok res →
        Y ∈ pa.map Prod.fst → Y ∈ res.map Prod.fst := by
  intro dl hdl
  obtain ⟨hseeds, hclosed⟩ := buildDepList_spec hdl
  have hYdl : Y ∈ dl := by
    induction hchain using Relation.ReflTransGen.head_induction_on with
    | refl => exact hseeds X hX
    | head hstep htail ihtail =>
      obtain ⟨v, ds, hmem, hk, hcds⟩ := hstep
      exact hclosed _ ihtail _ v ds hmem hk hcds
  refine ⟨hYdl, ?_⟩
  intro spec pa res hspec hpa hres hYpa
  unfold get_app_deps_and_prios at hres
  simp only [hdl, except_bind_ok, hspec, hpa] at hres
  have hr2 : pa.filter (fun p => decide (p.1 ∈ dl)) = res := by
    simpa [except_pure_eq_ok] using hres
  obtain ⟨p, hp, hp1⟩ := List.mem_map.mp hYpa
  refine List.mem_map.mpr ⟨p, ?_, hp1⟩
  rw [← hr2]
  exact List.mem_filter.mpr ⟨hp, by simpa [hp1] using hYdl⟩

theorem cfgT9_chain : Relation.ReflTransGen (RawDepEdge cfgT9) "Y" "X" := by
  have e1 : RawDepEdge cfgT9 "Y" "Z" :=
    ⟨.app { module := "m", klass := "K", dependencies := some ["Z"] },
     ["Z"], by simp [cfgT9], rfl, by simp⟩
  have e2 : RawDepEdge cfgT9 "Z" "X" :=
    ⟨.app { module := "m", klass := "K", dependencies := some ["X"] },
     ["X"], by simp [cfgT9], rfl, by simp⟩
  exact Relation.ReflTransGen.head e1
    (Relation.ReflTransGen.head e2 Relation.ReflTransGen.refl)

theorem C9_witness :
    ("X" ∈ ["X"] ∧ Relation.ReflTransGen (RawDepEdge cfgT9) "Y" "X") ∧
    ("Y" ∈ ["X", "Z", "Y"] ∧
     "Y" ∈ ([("X", startPrio), ("Z", startPrio + stepPrio),
       ("Y", startPrio + stepPrio + stepPrio)].map Prod.fst) ∧
     "Y" ∈ ([("X", startPrio), ("Z", startPrio + stepPrio),
       ("Y", startPrio + stepPrio + stepPrio)].map Prod.fst)) := by
  have H := C9_transitive_dependents cfgT9 ["X"] "Y" "X" (by decide)
    cfgT9_chain ["X", "Z", "Y"] (by decide)
  have H2 := H.2 [("X", []), ("Z", ["X"]), ("Y", ["Z"])]
    [("X", startPrio), ("Z", startPrio + stepPrio),
      ("Y", startPrio + stepPrio + stepPrio)]
    [("X", startPrio), ("Z", startPrio + stepPrio),
      ("Y", startPrio + stepPrio + stepPrio)]
    (by decide) (by decide) (by decide) (by decide)
  exact ⟨⟨by decide, cfgT9_chain⟩, H.1, by decide, H2⟩

/-- C4 (code bug): a parse failure of the only config document does not
abort the cycle.  `check_config` at the failing input returns a plan, has
already advanced the config watermark, terminates the configured app on
the spot and replaces the stored configuration and registry with empty
ones — the claim (and the source's own "invalid structure - ignoring"
log) say the previous state should be retained with no plan returned. -/
theorem C4_parse_failure_wipes_state :
    (check_config fsC4 stC4).1 = some ⟨[], [], 0⟩ ∧
    (check_config fsC4 stC4).2.1.app_config = [] ∧
    (check_config fsC4 stC4).2.1.objects = [] ∧
    (check_config fsC4 stC4).2.1.app_config_file_modified = 5 ∧
    (check_config fsC4 stC4).2.2 = [Event.termApp "a1"] ∧
    stC4.app_config ≠ [] ∧ stC4.objects ≠ [] ∧
    stC4.app_config_file_modified = 0 := by decide

/-- C5 (code bug): when module `mod1` fails to reload and the
configuration contains a `global_modules` entry, the removal loop indexes
`self.app_config["global_modules"]["module"]` and raises `TypeError`,
aborting the whole `check_app_updates` cycle instead of only removing the
affected app from the initialize set. -/
theorem C5_reload_failure_gm_crash :
    check_app_updates fsC5 stC5 none [pxC5] = .error .typeError ∧
    (alookup stC5.app_config "global_modules").isSome := by decide

/-! ## C10: a `None` plan meeting module changes -/
theorem except_foldlM_pres {α β : Type} {P : β → Prop}
    (f : β → α → Except PyErr β)
    (hstep : ∀ b a b2, P b → f b a = .ok b2 → P b2) :
    ∀ (l : List α) (b out : β), P b → l.foldlM f b = .ok out → P out := by
  intro l
  induction l with
  | nil =>
    intro b out hP h
    simp only [List.foldlM_nil, pure, Except.pure, Except.ok.injEq] at h
    exact h ▸ hP
  | cons a rest ih =>
    intro b out hP h
    rw [List.foldlM_cons] at h
    rcases hs : f b a with e | b1
    · simp only [hs, except_bind_error] at h
      exact absurd h (by simp)
    · simp only [hs, except_bind_ok] at h
      exact ih b1 out (hstep b a b1 hP hs) h

theorem except_foldlM_error {α β : Type} (f : β → α → Except PyErr β)
    (hstep : ∀ b a e, f b a = .error e → e = PyErr.typeError) :
    ∀ (l : List α) (b : β) (e : PyErr),
      l.foldlM f b = .error e → e = PyErr.typeError := by
  intro l
  induction l with
  | nil =>
    intro b e h
    simp only [List.foldlM_nil, pure, Except.pure] at h
    exact absurd h (by simp)
  | cons a rest ih =>
    intro b e h
    rw [List.foldlM_cons] at h
    rcases hs : f b a with e1 | b1
    · simp only [hs, except_bind_error] at h
      simp only [Except.error.injEq] at h
      exact h ▸ hstep b a e1 hs
    · simp only [hs, except_bind_ok] at h
      exact ih b1 e h

theorem except_foldlM_forced_error {α β : Type} {P : β → Prop}
    (f : β → α → Except PyErr β)
    (hpres : ∀ b a b2, P b → f b a = .ok b2 → P b2)
    (herr : ∀ b a e, f b a = .error e → e = PyErr.typeError)
    {a0 : α} (hfail : ∀ b, P b → f b a0 = .error PyErr.typeError) :
    ∀ (l : List α) (b : β), a0 ∈ l → P b →
      l.foldlM f b = .error PyErr.typeError := by
  intro l
  induction l with
  | nil => intro b h; cases h
  | cons x rest ih =>
    intro b hmem hP
    rw [List.foldlM_cons]
    rcases List.mem_cons.mp hmem with rfl | hmem2
    · rw [hfail b hP]
      simp [except_bind_error]
    · rcases hs : f b x with e1 | b1
      · simp only [except_bind_error]
        rw [herr b x e1 hs]
      · simp only [except_bind_ok]
        exact ih b1 hmem2 (hpres b x b1 hP hs)

theorem moduleField_error {v : ConfigVal} {e : PyErr}
    (h : moduleField v = .error e) : e = PyErr.typeError := by
  cases v with
  | app a => exact absurd h (by simp [moduleField])
  | gm l => simpa [moduleField] using h.symm

theorem globalDepsKey_error {v : ConfigVal} {e : PyErr}
    (h : globalDepsKey v = .error e) : e = PyErr.typeError := by
  cases v with
  | app a => exact absurd h (by simp [globalDepsKey])
  | gm l =>
    by_cases hm : "global_dependencies" ∈ l
    · simp only [globalDepsKey, if_pos hm, Except.error.injEq] at h
      exact h.symm
    · simp only [globalDepsKey, if_neg hm] at h
      exact absurd h (by simp)

theorem planTermAdd_error {p : Option Plan} {a : String} {e : PyErr}
    (h : planTermAdd p a = .error e) : e = PyErr.typeError := by
  cases p with
  | none => simpa [planTermAdd] using h.symm
  | some pl => exact absurd h (by simp [planTermAdd])

theorem planInitAdd_error {p : Option Plan} {a : String} {e : PyErr}
    (h : planInitAdd p a = .error e) : e = PyErr.typeError := by
  cases p with
  | none => simpa [planInitAdd] using h.symm
  | some pl => exact absurd h (by simp [planInitAdd])

theorem planTermAdd_none_not_ok {a : String} {p2 : Option Plan}
    (h : planTermAdd none a = .ok p2) : False := by
  simp [planTermAdd] at h

theorem planInitAdd_none_not_ok {a : String} {p2 : Option Plan}
    (h : planInitAdd none a = .ok p2) : False := by
  simp [planInitAdd] at h

theorem termAddInit_error {r : Bool} {p : Option Plan} {a : String}
    {e : PyErr} (h : termAddInit r p a = .error e) : e = PyErr.typeError := by
  unfold termAddInit at h
  rcases r with _ | _
  · simp only [Bool.false_eq_true, if_false, except_pure_bind] at h
    exact planInitAdd_error h
  · simp only [if_true] at h
    rcases hs : planTermAdd p a with e1 | p1
    · rw [hs] at h
      simp only [except_bind_error, Except.error.injEq] at h
      exact h ▸ planTermAdd_error hs
    · rw [hs] at h
      simp only [except_bind_ok] at h
      exact planInitAdd_error h

theorem termAddInit_none_not_ok {r : Bool} {a : String} {p2 : Option Plan}
    (h : termAddInit r none a = .ok p2) : False := by
  unfold termAddInit at h
  rcases r with _ | _
  · simp only [Bool.false_eq_true, if_false, except_pure_bind] at h
    exact planInitAdd_none_not_ok h
  · simp [planTermAdd, except_bind_error] at h

theorem apps_per_module_error {cfg : Config} {m : String} {e : PyErr}
    (h : apps_per_module cfg m = .error e) : e = PyErr.typeError := by
  unfold apps_per_module at h
  refine except_foldlM_error _ ?_ cfg [] e h
  intro acc p e2 hs
  by_cases hn : p.1 ≠ "global_modules"
  · rw [if_pos hn] at hs
    rcases hf : moduleField p.2 with e3 | mm
    · rw [hf] at hs
      simp only [except_bind_error, Except.error.injEq] at hs
      exact hs ▸ moduleField_error hf
    · rw [hf] at hs
      simp only [except_bind_ok] at hs
      by_cases hmm : mm = m
      · rw [if_pos hmm] at hs
        exact absurd hs (by simp [pure, Except.pure])
      · rw [if_neg hmm] at hs
        exact absurd hs (by simp [pure, Except.pure])
  · rw [if_neg hn] at hs
    exact absurd hs (by simp [pure, Except.pure])

theorem apps_per_global_module_error {cfg : Config} {m : String} {e : PyErr}
    (h : apps_per_global_module cfg m = .error e) : e = PyErr.typeError := by
  unfold apps_per_global_module at h
  refine except_foldlM_error _ ?_ cfg [] e h
  intro acc p e2 hs
  rcases hf : globalDepsKey p.2 with e3 | og
  · rw [hf] at hs
    simp only [except_bind_error, Except.error.injEq] at hs
    exact hs ▸ globalDepsKey_error hf
  · rw [hf] at hs
    simp only [except_bind_ok] at hs
    rcases og with _ | gds
    · exact absurd hs (by simp [pure, Except.pure])
    · by_cases hmm : m ∈ gds <;> simp [hmm, pure, Except.pure] at hs

theorem termAddInit_none_err (r : Bool) (a : String) :
    termAddInit r none a = .error PyErr.typeError := by
  cases r <;> rfl

theorem dmpStep_error {cfg : Config} {p : Option Plan} {file : MPath}
    {e : PyErr} (h : dmpStep cfg p file = .error e) : e = PyErr.typeError := by
  unfold dmpStep at h
  rcases hf : apps_per_module cfg (get_module_from_path file) with e1 | l
  · rw [hf] at h
    simp only [except_bind_error, Except.error.injEq] at h
    exact h ▸ apps_per_module_error hf
  · rw [hf] at h
    simp only [except_bind_ok] at h
    exact except_foldlM_error _ (fun b a e2 hs => planTermAdd_error hs) l p e h

theorem dmpStep_pres_none {cfg : Config} {file : MPath} {p2 : Option Plan}
    (h : dmpStep cfg none file = .ok p2) : p2 = none := by
  unfold dmpStep at h
  rcases hf : apps_per_module cfg (get_module_from_path file) with e1 | l
  · rw [hf] at h
    simp only [except_bind_error] at h
    exact absurd h (by simp)
  · rw [hf] at h
    simp only [except_bind_ok] at h
    exact except_foldlM_pres (P := fun b => b = none) _
      (fun b a b2 hP hok =>
        absurd hok (by rw [hP]; exact fun hh => planTermAdd_none_not_ok hh))
      l none p2 rfl h

theorem dmpStep_forced {cfg : Config} {file : MPath} {l : List String}
    (hl : apps_per_module cfg (get_module_from_path file) = .ok l)
    (hne : l ≠ []) :
    dmpStep cfg none file = .error PyErr.typeError := by
  unfold dmpStep
  rw [hl]
  simp only [except_bind_ok]
  cases l with
  | nil => exact absurd rfl hne
  | cons a l2 =>
    rw [List.foldlM_cons]
    have h0 : planTermAdd none a = .error PyErr.typeError := rfl
    rw [h0]
    rfl

theorem gmStep_error {cfg : Config} {m : MPath × Bool} {p : Option Plan}
    {gm : String} {e : PyErr} (h : gmStep cfg m p gm = .error e) :
    e = PyErr.typeError := by
  unfold gmStep at h
  by_cases hg : gm = get_module_from_path m.1
  · rw [if_pos hg] at h
    rcases hf : apps_per_global_module cfg gm with e1 | l
    · rw [hf] at h
      simp only [except_bind_error, Except.error.injEq] at h
      exact h ▸ apps_per_global_module_error hf
    · rw [hf] at h
      simp only [except_bind_ok] at h
      exact except_foldlM_error _ (fun b a e2 hs => termAddInit_error hs)
        l p e h
  · rw [if_neg hg] at h
    exact absurd h (by simp [pure, Except.pure])

theorem gmStep_pres_none {cfg : Config} {m : MPath × Bool} {gm : String}
    {p2 : Option Plan} (h : gmStep cfg m none gm = .ok p2) : p2 = none := by
  unfold gmStep at h
  by_cases hg : gm = get_module_from_path m.1
  · rw [if_pos hg] at h
    rcases hf : apps_per_global_module cfg gm with e1 | l
    · rw [hf] at h
      simp only [except_bind_error] at h
      exact absurd h (by simp)
    · rw [hf] at h
      simp only [except_bind_ok] at h
      exact except_foldlM_pres (P := fun b => b = none) _
        (fun b a b2 hP hok =>
          absurd hok (by rw [hP]; exact fun hh => termAddInit_none_not_ok hh))
        l none p2 rfl h
  · rw [if_neg hg] at h
    have : p2 = none := by simpa [pure, Except.pure] using h.symm
    exact this

theorem mStep_error {cfg : Config} {p : Option Plan} {m : MPath × Bool}
    {e : PyErr} (h : mStep cfg p m = .error e) : e = PyErr.typeError := by
  unfold mStep at h
  rcases hf : apps_per_module cfg (get_module_from_path m.1) with e1 | l
  · rw [hf] at h
    simp only [except_bind_error, Except.error.injEq] at h
    exact h ▸ apps_per_module_error hf
  · rw [hf] at h
    simp only [except_bind_ok] at h
    rcases hfold : l.foldlM (termAddInit m.2) p with e2 | p1
    · rw [hfold] at h
      simp only [except_bind_error, Except.error.injEq] at h
      exact h ▸ except_foldlM_error _ (fun b a e3 hs => termAddInit_error hs)
        l p e2 hfold
    · rw [hfold] at h
      simp only [except_bind_ok] at h
      rcases hgm : alookup cfg "global_modules" with _ | v
      · rw [hgm] at h
        exact absurd h (by simp [pure, Except.pure])
      · rw [hgm] at h
        exact except_foldlM_error _ (fun b a e3 hs => gmStep_error hs)
          (singleOrList v) p1 e h

theorem mStep_pres_none {cfg : Config} {m : MPath × Bool} {p2 : Option Plan}
    (h : mStep cfg none m = .ok p2) : p2 = none := by
  unfold mStep at h
  rcases hf : apps_per_module cfg (get_module_from_path m.1) with e1 | l
  · rw [hf] at h
    simp only [except_bind_error] at h
    exact absurd h (by simp)
  · rw [hf] at h
    simp only [except_bind_ok] at h
    rcases hfold : l.foldlM (termAddInit m.2) none with e2 | p1
    · rw [hfold] at h
      simp only [except_bind_error] at h
      exact absurd h (by simp)
    · rw [hfold] at h
      simp only [except_bind_ok] at h
      have hp1 : p1 = none :=
        except_foldlM_pres (P := fun b => b = none) _
          (fun b a b2 hP hok =>
            absurd hok (by rw [hP]; exact fun hh => termAddInit_none_not_ok hh))
          l none p1 rfl hfold
      subst hp1
      rcases hgm : alookup cfg "global_modules" with _ | v
      · rw [hgm] at h
        simpa [pure, Except.pure] using h.symm
      · rw [hgm] at h
        exact except_foldlM_pres (P := fun b => b = none) _
          (fun b a b2 hP hok => by
            rw [hP] at hok
            exact gmStep_pres_none hok)
          (singleOrList v) none p2 rfl h

theorem mStep_forced {cfg : Config} {m : MPath × Bool} {l : List String}
    (hl : apps_per_module cfg (get_module_from_path m.1) = .ok l)
    (hne : l ≠ []) :
    mStep cfg none m = .error PyErr.typeError := by
  unfold mStep
  rw [hl]
  simp only [except_bind_ok]
  cases l with
  | nil => exact absurd rfl hne
  | cons a l2 =>
    rw [List.foldlM_cons, termAddInit_none_err]
    rfl

/-- C10, counterexample: `check_config` returns no plan (`None`) and a
monitored code module was added in the same cycle, yet `check_app_updates`
completes the cycle without raising: the new module matches no configured
app, so the `apps["term"]` / `apps["init"]` indexing the claim points to
is never reached. -/
theorem C10_counterexample :
    (check_config fsC10 stC10).1 = none ∧
    (scanModules fsC10 (check_config fsC10 stC10).2.1).1 ≠ [] ∧
    (check_app_updates fsC10 stC10 none []).toOption.isSome := by decide

/-- C10, amended: when `check_config` returns no plan, the cycle aborts
with an uncaught `TypeError` exactly when some deleted module, or some
added/modified module, resolves to a non-empty list of configured apps;
the first such app's insertion indexes into the `None` plan. -/
theorem C10_none_plan_amended (fs : FS) (st : AMState)
    (plugin : Option String) (loadFails : List MPath)
    (hplan : (check_config fs st).1 = none)
    (hmatch :
      (∃ d ∈ (scanModules fs (check_config fs st).2.1).2.1, ∃ l,
        apps_per_module
            (scanModules fs (check_config fs st).2.1).2.2.app_config
            (get_module_from_path d) = .ok l ∧ l ≠ []) ∨
      (∃ m ∈ (scanModules fs (check_config fs st).2.1).1, ∃ l,
        apps_per_module
            (scanModules fs (check_config fs st).2.1).2.2.app_config
            (get_module_from_path m.1) = .ok l ∧ l ≠ [])) :
    check_app_updates fs st plugin loadFails = .error PyErr.typeError := by
  simp only [check_app_updates]
  rw [hplan]
  rcases hmatch with ⟨d, hd, l, hl, hne⟩ | ⟨m, hm, l, hl, hne⟩
  · have hforce : deletedModulesPhase
        (scanModules fs (check_config fs st).2.1).2.2.app_config
        (scanModules fs (check_config fs st).2.1).2.1 none =
        .error PyErr.typeError := by
      unfold deletedModulesPhase
      exact except_foldlM_forced_error (P := fun b => b = none) _
        (fun b a b2 hP hok => by rw [hP] at hok; exact dmpStep_pres_none hok)
        (fun b a e hs => dmpStep_error hs)
        (fun b hb => by rw [hb]; exact dmpStep_forced hl hne)
        _ _ hd rfl
    rw [hforce, except_bind_error]
  · rcases hdmp : deletedModulesPhase
      (scanModules fs (check_config fs st).2.1).2.2.app_config
      (scanModules fs (check_config fs st).2.1).2.1 none with e | p1
    · have he : e = PyErr.typeError := by
        unfold deletedModulesPhase at hdmp
        exact except_foldlM_error _ (fun b a e2 hs => dmpStep_error hs)
          _ _ _ hdmp
      rw [except_bind_error, he]
    · have hp1 : p1 = none := by
        unfold deletedModulesPhase at hdmp
        exact except_foldlM_pres (P := fun b => b = none) _
          (fun b a b2 hP hok => by rw [hP] at hok; exact dmpStep_pres_none hok)
          _ _ _ rfl hdmp
      subst hp1
      simp only [except_bind_ok]
      have hforce : modulesPhase
          (scanModules fs (check_config fs st).2.1).2.2.app_config
          (scanModules fs (check_config fs st).2.1).1 none =
          .error PyErr.typeError := by
        unfold modulesPhase
        exact except_foldlM_forced_error (P := fun b => b = none) _
          (fun b a b2 hP hok => by rw [hP] at hok; exact mStep_pres_none hok)
          (fun b a e hs => mStep_error hs)
          (fun b hb => by rw [hb]; exact mStep_forced hl hne)
          _ _ hm rfl
      rw [hforce, except_bind_error]

/-- C10, witness for the amended theorem. -/
theorem C10_witness :
    (check_config fsC10w stC10w).1 = none ∧
    check_app_updates fsC10w stC10w none [] = .error PyErr.typeError :=
  ⟨by decide,
   C10_none_plan_amended fsC10w stC10w none [] (by decide)
     (Or.inr ⟨(pxC10w, true), by decide, ["app1"], by decide, by decide⟩)⟩

theorem except_mapM_ok_mem {α β : Type} (f : α → Except PyErr β) :
    ∀ (l : List α) (out : List β), l.mapM f = .ok out →
      ∀ a ∈ l, ∃ b, f a = .ok b := by
  intro l
  induction l with
  | nil => intro out h a ha; cases ha
  | cons x rest ih =>
    intro out h a ha
    rw [List.mapM_cons] at h
    rcases hx : f x with e | b
    · rw [hx] at h
      simp only [except_bind_error] at h
      exact absurd h (by simp)
    · rw [hx] at h
      simp only [except_bind_ok] at h
      rcases hrest : rest.mapM f with e | bs
      · rw [hrest] at h
        simp only [except_bind_error] at h
        exact absurd h (by simp)
      · rw [hrest] at h
        rcases List.mem_cons.mp ha with rfl | hmem
        · exact ⟨b, hx⟩
        · exact ih bs hrest a hmem

theorem except_mapM_eq_map {α β : Type} (f : α → Except PyErr β)
    (g : α → β) (hg : ∀ a b, f a = .ok b → b = g a) :
    ∀ (l : List α) (out : List β), l.mapM f = .ok out →
      out = l.map g := by
  intro l
  induction l with
  | nil =>
    intro out h
    simp only [List.mapM_nil, pure, Except.pure, Except.ok.injEq] at h
    simpa using h.symm
  | cons x rest ih =>
    intro out h
    rw [List.mapM_cons] at h
    rcases hx : f x with e | b
    · rw [hx] at h
      simp only [except_bind_error] at h
      exact absurd h (by simp)
    · rw [hx] at h
      simp only [except_bind_ok] at h
      rcases hrest : rest.mapM f with e | bs
      · rw [hrest] at h
        simp only [except_bind_error] at h
        exact absurd h (by simp)
      · rw [hrest] at h
        simp only [except_bind_ok, except_pure_eq_ok, Except.ok.injEq] at h
        rw [List.map_cons, ← h, hg x b hx, ih bs hrest]

theorem initPass2Item_ok {cfg : Config} {a : String} {b : Event}
    (h : initPass2Item cfg a = .ok b) :
    b = (if isDisabled cfg a = .ok true then Event.noInit a
         else Event.callInit a) := by
  unfold initPass2Item at h
  rcases hd : isDisabled cfg a with e | d
  · rw [hd] at h
    simp only [except_bind_error] at h
    exact absurd h (by simp)
  · rw [hd] at h
    simp only [except_bind_ok, except_pure_eq_ok, Except.ok.injEq] at h
    cases d
    · rw [if_neg (by simp)]
      simpa using h.symm
    · rw [if_pos rfl]
      simpa using h.symm

theorem initPass1Item_ne_pin (cfg : Config) (a : String) :
    initPass1Item cfg a ≠ Event.pinThreads := by
  unfold initPass1Item
  rcases isDisabled cfg a with e | d
  · simp
  · cases d <;> simp

/-- C3: with a non-empty initialize set, the initialize phase of
`check_app_updates` makes two passes over one and the same ordering
`ord`: pass one emits one construction-or-skip event per app of `ord`
(every non-disabled app is constructed), the thread pins are recomputed
exactly once after all of pass one, and only then does pass two call the
initialize hook of every non-disabled app of `ord`, in the same order. -/
theorem C3_two_pass_init (cfg : Config) (pl : Plan) (ev : List Event)
    (hne : pl.init.isEmpty = false)
    (h : initPhase cfg (some pl) = .ok ev) :
    ∃ (ord : List String) (l1 l2 : List Event),
      ev = l1 ++ Event.pinThreads :: l2 ∧
      Event.pinThreads ∉ l1 ∧ Event.pinThreads ∉ l2 ∧
      l1 = ord.map (initPass1Item cfg) ∧
      l2 = ord.map (fun a =>
        if isDisabled cfg a = .ok true then Event.noInit a
        else Event.callInit a) ∧
      (∀ a ∈ ord, isDisabled cfg a = .ok false →
        Event.construct a ∈ l1 ∧ Event.callInit a ∈ l2) := by
  simp only [initPhase] at h
  rw [hne] at h
  rw [if_neg Bool.false_ne_true] at h
  rcases hprio : get_app_deps_and_prios cfg pl.init with e | prio
  · rw [hprio] at h
    simp only [except_bind_error] at h
    exact absurd h (by simp)
  · rw [hprio] at h
    simp only [except_bind_ok] at h
    rcases hp2 : (sortAsc prio).mapM (initPass2Item cfg) with e | pass2
    · rw [hp2] at h
      simp only [except_bind_error] at h
      exact absurd h (by simp)
    · rw [hp2] at h
      simp only [except_bind_ok, except_pure_eq_ok, Except.ok.injEq] at h
      refine ⟨sortAsc prio, (sortAsc prio).map (initPass1Item cfg), pass2,
        ?_, ?_, ?_, rfl, ?_, ?_⟩
      · rw [← h]
        simp
      · intro hmem
        rcases List.mem_map.mp hmem with ⟨a, _, ha⟩
        exact initPass1Item_ne_pin cfg a ha
      · have hmap := except_mapM_eq_map (initPass2Item cfg)
          (fun a => if isDisabled cfg a = .ok true then Event.noInit a
            else Event.callInit a)
          (fun a b hb => initPass2Item_ok hb) (sortAsc prio) pass2 hp2
        intro hmem
        rw [hmap] at hmem
        rcases List.mem_map.mp hmem with ⟨a, _, ha⟩
        by_cases hd : isDisabled cfg a = .ok true
        · rw [if_pos hd] at ha
          cases ha
        · rw [if_neg hd] at ha
          cases ha
      · exact except_mapM_eq_map (initPass2Item cfg)
          (fun a => if isDisabled cfg a = .ok true then Event.noInit a
            else Event.callInit a)
          (fun a b hb => initPass2Item_ok hb) (sortAsc prio) pass2 hp2
      · intro a ha hnd
        constructor
        · refine List.mem_map.mpr ⟨a, ha, ?_⟩
          unfold initPass1Item
          rw [hnd]
        · have hmap := except_mapM_eq_map (initPass2Item cfg)
            (fun a => if isDisabled cfg a = .ok true then Event.noInit a
              else Event.callInit a)
            (fun a b hb => initPass2Item_ok hb) (sortAsc prio) pass2 hp2
          rw [hmap]
          refine List.mem_map.mpr ⟨a, ha, ?_⟩
          rw [if_neg (by rw [hnd]; simp)]

/-- C3, witness. -/
theorem C3_witness :
    plC3.init.isEmpty = false ∧
    initPhase cfgC3 (some plC3) = .ok evC3 ∧
    ∃ (ord : List String) (l1 l2 : List Event),
      evC3 = l1 ++ Event.pinThreads :: l2 ∧
      Event.pinThreads ∉ l1 ∧ Event.pinThreads ∉ l2 ∧
      l1 = ord.map (initPass1Item cfgC3) ∧
      l2 = ord.map (fun a =>
        if isDisabled cfgC3 a = .ok true then Event.noInit a
        else Event.callInit a) ∧
      (∀ a ∈ ord, isDisabled cfgC3 a = .ok false →
        Event.construct a ∈ l1 ∧ Event.callInit a ∈ l2) :=
  ⟨by decide, by decide,
   C3_two_pass_init cfgC3 plC3 evC3 (by decide) (by decide)⟩

theorem mem_addKey {x k : String} {l : List String}
    (h : x ∈ addKey l k) : x ∈ l ∨ x = k := by
  unfold addKey at h
  by_cases hk : k ∈ l
  · rw [if_pos hk] at h
    exact Or.inl h
  · rw [if_neg hk] at h
    rcases List.mem_append.mp h with h1 | h1
    · exact Or.inl h1
    · exact Or.inr (List.mem_singleton.mp h1)

theorem alookup_some_mem {α : Type} {l : List (String × α)} {k : String}
    {v : α} (h : alookup l k = some v) : (k, v) ∈ l := by
  induction l with
  | nil => cases h
  | cons p rest ih =>
    obtain ⟨pk, pv⟩ := p
    unfold alookup at h
    by_cases hk : pk = k
    · rw [if_pos hk] at h
      subst hk
      simp only [Option.some.injEq] at h
      subst h
      exact List.mem_cons_self _ _
    · rw [if_neg hk] at h
      exact List.mem_cons_of_mem _ (ih h)

theorem diffStep1_events_cases {new : Config} {st : DiffSt}
    {p : String × ConfigVal} {e : Event}
    (h : e ∈ (diffStep1 new st p).events) :
    e ∈ st.events ∨ (e = Event.termApp p.1 ∧ alookup new p.1 = none) := by
  unfold diffStep1 at h
  split at h
  · split at h
    · exact Or.inl h
    · exact Or.inl h
  · next heq =>
    rcases List.mem_append.mp h with h1 | h1
    · exact Or.inl h1
    · exact Or.inr ⟨List.mem_singleton.mp h1, heq⟩

theorem diffStep1_events_mono {new : Config} {st : DiffSt}
    {p : String × ConfigVal} {e : Event} (h : e ∈ st.events) :
    e ∈ (diffStep1 new st p).events := by
  unfold diffStep1
  split
  · split
    · exact h
    · exact h
  · exact List.mem_append.mpr (Or.inl h)

theorem diffStep1_events_hit {new : Config} {st : DiffSt}
    {p : String × ConfigVal} (hn : alookup new p.1 = none) :
    Event.termApp p.1 ∈ (diffStep1 new st p).events := by
  unfold diffStep1
  rw [hn]
  simp

theorem diffStep1_term_cases {new : Config} {st : DiffSt}
    {p : String × ConfigVal} {x : String}
    (h : x ∈ (diffStep1 new st p).term) :
    x ∈ st.term ∨ (x = p.1 ∧ ∃ v2, alookup new p.1 = some v2 ∧ p.2 ≠ v2) := by
  unfold diffStep1 at h
  split at h
  · next v2 heq =>
    split at h
    · next hne =>
      rcases mem_addKey h with h1 | h1
      · exact Or.inl h1
      · exact Or.inr ⟨h1, v2, heq, hne⟩
    · exact Or.inl h
  · exact Or.inl h

theorem diffStep1_init_cases {new : Config} {st : DiffSt}
    {p : String × ConfigVal} {x : String}
    (h : x ∈ (diffStep1 new st p).init) :
    x ∈ st.init ∨ (x = p.1 ∧ ∃ v2, alookup new p.1 = some v2 ∧ p.2 ≠ v2) := by
  unfold diffStep1 at h
  split at h
  · next v2 heq =>
    split at h
    · next hne =>
      rcases mem_addKey h with h1 | h1
      · exact Or.inl h1
      · exact Or.inr ⟨h1, v2, heq, hne⟩
    · exact Or.inl h
  · exact Or.inl h

theorem diffStep2_term_eq (old : Config) (st : DiffSt)
    (p : String × ConfigVal) : (diffStep2 old st p).term = st.term := by
  unfold diffStep2
  split
  · rfl
  · split
    · rfl
    · split
      · rfl
      · rfl

theorem diffStep2_events_eq (old : Config) (st : DiffSt)
    (p : String × ConfigVal) : (diffStep2 old st p).events = st.events := by
  unfold diffStep2
  split
  · rfl
  · split
    · rfl
    · split
      · rfl
      · rfl

theorem diffStep2_init_cases {old : Config} {st : DiffSt}
    {p : String × ConfigVal} {x : String}
    (h : x ∈ (diffStep2 old st p).init) :
    x ∈ st.init ∨ (x = p.1 ∧ alookup old p.1 = none) := by
  unfold diffStep2 at h
  split at h
  · exact Or.inl h
  · next heq =>
    split at h
    · rcases mem_addKey h with h1 | h1
      · exact Or.inl h1
      · exact Or.inr ⟨h1, heq⟩
    · split at h
      · rcases mem_addKey h with h1 | h1
        · exact Or.inl h1
        · exact Or.inr ⟨h1, heq⟩
      · exact Or.inl h

theorem dl1_events_mono (new : Config) :
    ∀ (l : List (String × ConfigVal)) (st : DiffSt) (e : Event),
      e ∈ st.events → e ∈ (l.foldl (diffStep1 new) st).events := by
  intro l
  induction l with
  | nil => intro st e h; exact h
  | cons q rest ih =>
    intro st e h
    rw [List.foldl_cons]
    exact ih _ e (diffStep1_events_mono h)

theorem dl1_events_cases (new : Config) :
    ∀ (l : List (String × ConfigVal)) (st : DiffSt) (e : Event),
      e ∈ (l.foldl (diffStep1 new) st).events →
      e ∈ st.events ∨
        ∃ p ∈ l, e = Event.termApp p.1 ∧ alookup new p.1 = none := by
  intro l
  induction l with
  | nil => intro st e h; exact Or.inl h
  | cons q rest ih =>
    intro st e h
    rw [List.foldl_cons] at h
    rcases ih _ e h with h1 | ⟨p, hp, he1, he2⟩
    · rcases diffStep1_events_cases h1 with h2 | h2
      · exact Or.inl h2
      · exact Or.inr ⟨q, List.mem_cons_self _ _, h2.1, h2.2⟩
    · exact Or.inr ⟨p, List.mem_cons_of_mem _ hp, he1, he2⟩

theorem dl1_events_hit (new : Config) :
    ∀ (l : List (String × ConfigVal)) (st : DiffSt)
      (p : String × ConfigVal), p ∈ l → alookup new p.1 = none →
      Event.termApp p.1 ∈ (l.foldl (diffStep1 new) st).events := by
  intro l
  induction l with
  | nil => intro st p hp; cases hp
  | cons q rest ih =>
    intro st p hp hn
    rw [List.foldl_cons]
    rcases List.mem_cons.mp hp with rfl | hmem
    · exact dl1_events_mono new rest _ _ (diffStep1_events_hit hn)
    · exact ih _ p hmem hn

theorem dl1_term_cases (new : Config) :
    ∀ (l : List (String × ConfigVal)) (st : DiffSt) (x : String),
      x ∈ (l.foldl (diffStep1 new) st).term →
      x ∈ st.term ∨
        ∃ p ∈ l, x = p.1 ∧
          ∃ v2, alookup new p.1 = some v2 ∧ p.2 ≠ v2 := by
  intro l
  induction l with
  | nil => intro st x h; exact Or.inl h
  | cons q rest ih =>
    intro st x h
    rw [List.foldl_cons] at h
    rcases ih _ x h with h1 | ⟨p, hp, he1, he2⟩
    · rcases diffStep1_term_cases h1 with h2 | h2
      · exact Or.inl h2
      · exact Or.inr ⟨q, List.mem_cons_self _ _, h2.1, h2.2⟩
    · exact Or.inr ⟨p, List.mem_cons_of_mem _ hp, he1, he2⟩

theorem dl1_init_cases (new : Config) :
    ∀ (l : List (String × ConfigVal)) (st : DiffSt) (x : String),
      x ∈ (l.foldl (diffStep1 new) st).init →
      x ∈ st.init ∨
        ∃ p ∈ l, x = p.1 ∧
          ∃ v2, alookup new p.1 = some v2 ∧ p.2 ≠ v2 := by
  intro l
  induction l with
  | nil => intro st x h; exact Or.inl h
  | cons q rest ih =>
    intro st x h
    rw [List.foldl_cons] at h
    rcases ih _ x h with h1 | ⟨p, hp, he1, he2⟩
    · rcases diffStep1_init_cases h1 with h2 | h2
      · exact Or.inl h2
      · exact Or.inr ⟨q, List.mem_cons_self _ _, h2.1, h2.2⟩
    · exact Or.inr ⟨p, List.mem_cons_of_mem _ hp, he1, he2⟩

theorem dl2_term_eq (old : Config) :
    ∀ (l : List (String × ConfigVal)) (st : DiffSt),
      (l.foldl (diffStep2 old) st).term = st.term := by
  intro l
  induction l with
  | nil => intro st; rfl
  | cons q rest ih =>
    intro st
    rw [List.foldl_cons, ih, diffStep2_term_eq]

theorem dl2_events_eq (old : Config) :
    ∀ (l : List (String × ConfigVal)) (st : DiffSt),
      (l.foldl (diffStep2 old) st).events = st.events := by
  intro l
  induction l with
  | nil => intro st; rfl
  | cons q rest ih =>
    intro st
    rw [List.foldl_cons, ih, diffStep2_events_eq]

theorem dl2_init_cases (old : Config) :
    ∀ (l : List (String × ConfigVal)) (st : DiffSt) (x : String),
      x ∈ (l.foldl (diffStep2 old) st).init →
      x ∈ st.init ∨ ∃ p ∈ l, x = p.1 ∧ alookup old p.1 = none := by
  intro l
  induction l with
  | nil => intro st x h; exact Or.inl h
  | cons q rest ih =>
    intro st x h
    rw [List.foldl_cons] at h
    rcases ih _ x h with h1 | ⟨p, hp, he1, he2⟩
    · rcases diffStep2_init_cases h1 with h2 | h2
      · exact Or.inl h2
      · exact Or.inr ⟨q, List.mem_cons_self _ _, h2.1, h2.2⟩
    · exact Or.inr ⟨p, List.mem_cons_of_mem _ hp, he1, he2⟩

/-- C7: when app `A` is deleted from the configuration and app `B` is
unchanged (whatever dependencies `B` declares), the config diff of
`check_config` terminates `A` immediately through `term_object` (a raw
termination event, outside the priority-ordered terminate set of the
plan) and does not cascade to `B`: `B` is neither terminated (no event,
not in the terminate set) nor reinitialized. -/
theorem C7_delete_no_cascade (old new : Config) (objects : List String)
    (A B : String) (vA vB : ConfigVal)
    (hnd : (old.map Prod.fst).Nodup)
    (hA : (A, vA) ∈ old) (hAnew : alookup new A = none)
    (hBold : alookup old B = some vB) (hBnew : alookup new B = some vB) :
    Event.termApp A ∈ (diffConfigs old new objects).events ∧
    A ∉ (diffConfigs old new objects).term ∧
    B ∉ (diffConfigs old new objects).term ∧
    B ∉ (diffConfigs old new objects).init ∧
    Event.termApp B ∉ (diffConfigs old new objects).events := by
  unfold diffConfigs
  rw [dl2_events_eq, dl2_term_eq]
  refine ⟨?_, ?_, ?_, ?_, ?_⟩
  · exact dl1_events_hit new old _ (A, vA) hA hAnew
  · intro h
    rcases dl1_term_cases new old _ A h with h1 | ⟨p, hp, he1, v2, hv2, hne⟩
    · exact absurd h1 (List.not_mem_nil _)
    · rw [← he1] at hv2
      rw [hAnew] at hv2
      cases hv2
  · intro h
    rcases dl1_term_cases new old _ B h with h1 | ⟨p, hp, he1, v2, hv2, hne⟩
    · exact absurd h1 (List.not_mem_nil _)
    · rw [← he1] at hv2
      rw [hBnew] at hv2
      have hpB : (B, p.2) ∈ old := by
        rw [he1]
        exact hp
      have hvb : p.2 = vB :=
        keys_nodup_unique hnd hpB (alookup_some_mem hBold)
      rw [hvb] at hne
      simp only [Option.some.injEq] at hv2
      exact hne hv2
  · intro h
    rcases dl2_init_cases old new _ B h with h1 | ⟨p, hp, he1, he2⟩
    · rcases dl1_init_cases new old _ B h1 with h2 | ⟨p, hp, he1, v2, hv2, hne⟩
      · exact absurd h2 (List.not_mem_nil _)
      · rw [← he1] at hv2
        rw [hBnew] at hv2
        have hpB : (B, p.2) ∈ old := by
          rw [he1]
          exact hp
        have hvb : p.2 = vB :=
          keys_nodup_unique hnd hpB (alookup_some_mem hBold)
        rw [hvb] at hne
        simp only [Option.some.injEq] at hv2
        exact hne hv2
    · rw [← he1] at he2
      rw [hBold] at he2
      cases he2
  · intro h
    rcases dl1_events_cases new old _ _ h with h1 | ⟨p, hp, he1, he2⟩
    · exact absurd h1 (List.not_mem_nil _)
    · simp only [Event.termApp.injEq] at he1
      rw [← he1] at he2
      rw [hBnew] at he2
      cases he2

/-- C7, witness. -/
theorem C7_witness :
    Event.termApp "A" ∈ (diffConfigs oldC7 newC7 ["A", "B"]).events ∧
    "A" ∉ (diffConfigs oldC7 newC7 ["A", "B"]).term ∧
    "B" ∉ (diffConfigs oldC7 newC7 ["A", "B"]).term ∧
    "B" ∉ (diffConfigs oldC7 newC7 ["A", "B"]).init ∧
    Event.termApp "B" ∉ (diffConfigs oldC7 newC7 ["A", "B"]).events :=
  C7_delete_no_cascade oldC7 newC7 ["A", "B"] "A" "B" vAC7 vBC7
    (by decide) (by decide) (by decide) (by decide) (by decide)

theorem le_foldlMax (l : List (String × Int × RawDoc)) :
    ∀ a0 : Int, a0 ≤ l.foldl (fun acc f => max acc f.2.1) a0 := by
  induction l with
  | nil => intro a0; exact le_refl _
  | cons q rest ih =>
    intro a0
    rw [List.foldl_cons]
    exact le_trans (le_max_left _ _) (ih _)

theorem foldlMax_mem_le {l : List (String × Int × RawDoc)}
    {f : String × Int × RawDoc} (hf : f ∈ l) :
    ∀ a0 : Int, f.2.1 ≤ l.foldl (fun acc g => max acc g.2.1) a0 := by
  induction l with
  | nil => cases hf
  | cons q rest ih =>
    intro a0
    rw [List.foldl_cons]
    rcases List.mem_cons.mp hf with rfl | hmem
    · exact le_trans (le_max_right _ _) (le_foldlMax rest _)
    · exact ih hmem _

theorem foldlMax_const {l : List (String × Int × RawDoc)} {a0 : Int}
    (h : ∀ f ∈ l, f.2.1 ≤ a0) :
    l.foldl (fun acc f => max acc f.2.1) a0 = a0 := by
  induction l with
  | nil => rfl
  | cons q rest ih =>
    rw [List.foldl_cons, max_eq_left (h q (List.mem_cons_self _ _))]
    exact ih (fun f hf => h f (List.mem_cons_of_mem _ hf))

theorem staleOf_self (listing : List String) :
    staleOf (some listing) listing = [] := by
  unfold staleOf
  refine List.filter_eq_nil_iff.mpr (fun f hf => ?_)
  simp [hf]

theorem freshOf_self (listing : List String) :
    freshOf (some listing) listing = [] := by
  unfold freshOf
  refine List.filter_eq_nil_iff.mpr (fun f hf => ?_)
  simp [hf]

theorem check_config_fields (fs : FS) (st : AMState) :
    (check_config fs st).2.1.app_config_file_modified =
      fs.configFiles.foldl (fun acc f => max acc f.2.1)
        st.app_config_file_modified ∧
    (check_config fs st).2.1.app_config_files =
      some (fs.configFiles.map Prod.fst) := by
  simp only [check_config, check_later_app_configs]
  split
  · exact ⟨rfl, rfl⟩
  · split
    · exact ⟨rfl, rfl⟩
    · exact ⟨rfl, rfl⟩

/-- When the watermark already covers every config file and the listing
is current, `check_config` takes its fast path: empty plan, no events,
state unchanged. -/
theorem check_config_steady (fs : FS) (st : AMState)
    (hwm : ∀ f ∈ fs.configFiles, f.2.1 ≤ st.app_config_file_modified)
    (hlist : st.app_config_files = some (fs.configFiles.map Prod.fst)) :
    check_config fs st =
      (some ⟨[], [], st.app_config.length⟩, st, []) := by
  have hch : fs.configFiles.filter
      (fun f => st.app_config_file_modified < f.2.1) = [] := by
    refine List.filter_eq_nil_iff.mpr (fun f hf => ?_)
    simp only [decide_eq_true_eq, not_lt]
    exact hwm f hf
  simp only [check_config, check_later_app_configs, hlist, hch,
    staleOf_self, freshOf_self, foldlMax_const hwm]
  rw [if_pos ⟨rfl, rfl⟩]
  rw [← hlist]

theorem mlookup_append_some {α : Type} {l : List (MPath × α)} {k : MPath}
    {v : α} (l2 : List (MPath × α)) (h : mlookup l k = some v) :
    mlookup (l ++ l2) k = some v := by
  induction l with
  | nil => cases h
  | cons q rest ih =>
    obtain ⟨qk, qv⟩ := q
    rw [List.cons_append]
    simp only [mlookup] at h ⊢
    by_cases hk : qk = k
    · rw [if_pos hk] at h ⊢
      exact h
    · rw [if_neg hk] at h ⊢
      exact ih h

theorem mlookup_append_hit {α : Type} {l : List (MPath × α)} {k : MPath}
    (v : α) (h : mlookup l k = none) :
    mlookup (l ++ [(k, v)]) k = some v := by
  induction l with
  | nil => simp [mlookup]
  | cons q rest ih =>
    obtain ⟨qk, qv⟩ := q
    rw [List.cons_append]
    simp only [mlookup] at h ⊢
    by_cases hk : qk = k
    · rw [if_pos hk] at h
      cases h
    · rw [if_neg hk] at h ⊢
      exact ih h

theorem mlookup_map_update {α : Type} (l : List (MPath × α)) (K : MPath)
    (V : α) (k : MPath) :
    mlookup (l.map (fun p => if p.1 = K then (p.1, V) else p)) k =
      if k = K then (mlookup l k).map (fun _ => V) else mlookup l k := by
  induction l with
  | nil => by_cases hk : k = K <;> simp [mlookup, hk]
  | cons q rest ih =>
    obtain ⟨qk, qv⟩ := q
    rw [List.map_cons]
    by_cases hqK : qk = K
    · subst hqK
      rw [if_pos rfl]
      by_cases hqk : qk = k
      · subst hqk
        simp [mlookup]
      · have hkq : ¬ k = qk := fun hh => hqk hh.symm
        simp only [mlookup]
        simp only [if_neg hqk, if_neg hkq]
        rw [ih]
        rw [if_neg hkq]
    · rw [if_neg hqK]
      by_cases hqk : qk = k
      · subst hqk
        simp [mlookup, hqK]
      · simp only [mlookup]
        simp only [if_neg hqk]
        rw [ih]

theorem mlookup_filter_mem {α : Type} {found : List MPath}
    (l : List (MPath × α)) {k : MPath} (hk : k ∈ found) :
    mlookup (l.filter (fun p => decide (p.1 ∈ found))) k = mlookup l k := by
  induction l with
  | nil => rfl
  | cons q rest ih =>
    obtain ⟨qk, qv⟩ := q
    by_cases hq : qk ∈ found
    · rw [List.filter_cons_of_pos (by simpa using hq)]
      simp only [mlookup]
      by_cases hqk : qk = k
      · rw [if_pos hqk, if_pos hqk]
      · rw [if_neg hqk, if_neg hqk]
        exact ih
    · rw [List.filter_cons_of_neg (by simpa using hq)]
      simp only [mlookup]
      rw [if_neg (fun hh : qk = k => hq (hh ▸ hk))]
      exact ih

theorem scanStep_steady {acc : List (MPath × Bool) × List (MPath × Int)}
    {f : MPath × Int} {s : Int} (h : mlookup acc.2 f.1 = some s)
    (hle : f.2 ≤ s) : scanStep acc f = acc := by
  unfold scanStep
  split
  · next stored heq =>
    have hss : stored = s := by
      rw [heq] at h
      exact Option.some.inj h
    rw [if_neg (not_lt.mpr (hss.symm ▸ hle))]
  · next heq =>
    rw [heq] at h
    cases h

theorem scanStep_mono {acc : List (MPath × Bool) × List (MPath × Int)}
    {f : MPath × Int} {k : MPath} {s : Int}
    (h : mlookup acc.2 k = some s) :
    ∃ s2, mlookup (scanStep acc f).2 k = some s2 ∧ s ≤ s2 := by
  unfold scanStep
  split
  · next stored heq =>
    split
    · next hlt =>
      simp only
      rw [mlookup_map_update]
      by_cases hk : k = f.1
      · rw [if_pos hk, hk, heq]
        have hss : stored = s := by
          rw [hk, heq] at h
          exact Option.some.inj h
        exact ⟨f.2, rfl, le_of_lt (hss ▸ hlt)⟩
      · rw [if_neg hk]
        exact ⟨s, h, le_refl _⟩
    · exact ⟨s, h, le_refl _⟩
  · next heq =>
    exact ⟨s, mlookup_append_some _ h, le_refl _⟩

theorem scanStep_hit (acc : List (MPath × Bool) × List (MPath × Int))
    (f : MPath × Int) :
    ∃ s, mlookup (scanStep acc f).2 f.1 = some s ∧ f.2 ≤ s := by
  unfold scanStep
  split
  · next stored heq =>
    split
    · next hlt =>
      simp only
      rw [mlookup_map_update, if_pos rfl, heq]
      exact ⟨f.2, rfl, le_refl _⟩
    · next hlt =>
      exact ⟨stored, heq, not_lt.mp hlt⟩
  · next heq =>
    exact ⟨f.2, mlookup_append_hit _ heq, le_refl _⟩

theorem scanFold_mono :
    ∀ (l : List (MPath × Int))
      (acc : List (MPath × Bool) × List (MPath × Int)) (k : MPath)
      (s : Int), mlookup acc.2 k = some s →
      ∃ s2, mlookup (l.foldl scanStep acc).2 k = some s2 ∧ s ≤ s2 := by
  intro l
  induction l with
  | nil => intro acc k s h; exact ⟨s, h, le_refl _⟩
  | cons q rest ih =>
    intro acc k s h
    rw [List.foldl_cons]
    rcases scanStep_mono (f := q) h with ⟨s1, h1, hle1⟩
    rcases ih _ k s1 h1 with ⟨s2, h2, hle2⟩
    exact ⟨s2, h2, le_trans hle1 hle2⟩

theorem scanFold_complete :
    ∀ (l : List (MPath × Int))
      (acc : List (MPath × Bool) × List (MPath × Int)) (f : MPath × Int),
      f ∈ l →
      ∃ s, mlookup (l.foldl scanStep acc).2 f.1 = some s ∧ f.2 ≤ s := by
  intro l
  induction l with
  | nil => intro acc f hf; cases hf
  | cons q rest ih =>
    intro acc f hf
    rw [List.foldl_cons]
    rcases List.mem_cons.mp hf with rfl | hmem
    · rcases scanStep_hit acc f with ⟨s, hs, hle⟩
      rcases scanFold_mono rest _ f.1 s hs with ⟨s2, h2, hle2⟩
      exact ⟨s2, h2, le_trans hle hle2⟩
    · exact ih _ f hmem

theorem scanFold_steady {M : List (MPath × Int)} :
    ∀ (l : List (MPath × Int)) (mods : List (MPath × Bool)),
      (∀ f ∈ l, ∃ s, mlookup M f.1 = some s ∧ f.2 ≤ s) →
      l.foldl scanStep (mods, M) = (mods, M) := by
  intro l
  induction l with
  | nil => intro mods h; rfl
  | cons q rest ih =>
    intro mods h
    rw [List.foldl_cons]
    rcases h q (List.mem_cons_self _ _) with ⟨s, hs, hle⟩
    rw [scanStep_steady hs hle]
    exact ih mods (fun f hf => h f (List.mem_cons_of_mem _ hf))

theorem scanModules_monitored_complete (fs : FS) (st : AMState) :
    ∀ f ∈ fs.moduleFiles, ∃ s,
      mlookup (scanModules fs st).2.2.monitored_files f.1 = some s ∧
      f.2 ≤ s := by
  intro f hf
  have hfound : f.1 ∈ fs.moduleFiles.map Prod.fst :=
    List.mem_map.mpr ⟨f, hf, rfl⟩
  rcases scanFold_complete fs.moduleFiles ([], st.monitored_files) f hf
    with ⟨s, hs, hle⟩
  refine ⟨s, ?_, hle⟩
  show mlookup
    ((fs.moduleFiles.foldl scanStep ([], st.monitored_files)).2.filter
      (fun p => decide (p.1 ∈ fs.moduleFiles.map Prod.fst))) f.1 = some s
  rw [mlookup_filter_mem _ hfound]
  exact hs

theorem scanModules_monitored_keys (fs : FS) (st : AMState) :
    ∀ p ∈ (scanModules fs st).2.2.monitored_files,
      p.1 ∈ fs.moduleFiles.map Prod.fst := by
  intro p hp
  have hp2 : p ∈
      (fs.moduleFiles.foldl scanStep ([], st.monitored_files)).2.filter
        (fun q => decide (q.1 ∈ fs.moduleFiles.map Prod.fst)) := hp
  have := List.of_mem_filter hp2
  simpa using this

/-- When every module file is already monitored at its current (or a
later) timestamp and no monitored file disappeared, the module scan
reports nothing and leaves the state untouched. -/
theorem scanModules_steady (fs : FS) (st : AMState)
    (hmon : ∀ f ∈ fs.moduleFiles, ∃ s,
      mlookup st.monitored_files f.1 = some s ∧ f.2 ≤ s)
    (hkeys : ∀ p ∈ st.monitored_files,
      p.1 ∈ fs.moduleFiles.map Prod.fst) :
    scanModules fs st = ([], [], st) := by
  have hscan : fs.moduleFiles.foldl scanStep ([], st.monitored_files) =
      ([], st.monitored_files) := scanFold_steady fs.moduleFiles [] hmon
  have h2 : ((st.monitored_files.map Prod.fst).filter
      (fun f => decide (f ∉ fs.moduleFiles.map Prod.fst))) = [] := by
    refine List.filter_eq_nil_iff.mpr (fun f hf => ?_)
    rcases List.mem_map.mp hf with ⟨p, hp, rfl⟩
    simp [hkeys p hp]
  have h3 : st.monitored_files.filter
      (fun p => decide (p.1 ∈ fs.moduleFiles.map Prod.fst)) =
      st.monitored_files :=
    List.filter_eq_self.mpr (fun p hp => by simpa using hkeys p hp)
  simp only [scanModules, hscan, h2, h3]

/-- The non-`objects` fields of the state returned by a successful
`check_app_updates` are those committed by `check_config` and the module
scan. -/
theorem check_app_updates_state {fs : FS} {st : AMState}
    {plugin : Option String} {lf : List MPath} {st1 : AMState}
    {p1 : Option Plan} {ev1 : List Event}
    (h : check_app_updates fs st plugin lf = .ok (st1, p1, ev1)) :
    st1.app_config_file_modified =
      (check_config fs st).2.1.app_config_file_modified ∧
    st1.app_config_files = (check_config fs st).2.1.app_config_files ∧
    st1.app_config = (check_config fs st).2.1.app_config ∧
    st1.monitored_files =
      (scanModules fs (check_config fs st).2.1).2.2.monitored_files := by
  simp only [check_app_updates] at h
  rcases h1 : deletedModulesPhase
      (scanModules fs (check_config fs st).2.1).2.2.app_config
      (scanModules fs (check_config fs st).2.1).2.1
      (check_config fs st).1 with e | q1
  · simp only [h1, except_bind_error] at h
    exact absurd h (by simp)
  · simp only [h1, except_bind_ok] at h
    rcases h2 : modulesPhase
        (scanModules fs (check_config fs st).2.1).2.2.app_config
        (scanModules fs (check_config fs st).2.1).1 q1 with e | q2
    · simp only [h2, except_bind_error] at h
      exact absurd h (by simp)
    · simp only [h2, except_bind_ok] at h
      rcases h3 : pluginPhase
          (scanModules fs (check_config fs st).2.1).2.2.app_config
          plugin q2 with e | q3
      · simp only [h3, except_bind_error] at h
        exact absurd h (by simp)
      · simp only [h3, except_bind_ok] at h
        rcases h4 : termPhase
            (scanModules fs (check_config fs st).2.1).2.2.app_config q3
            (scanModules fs (check_config fs st).2.1).2.2.objects
            with e | q4
        · simp only [h4, except_bind_error] at h
          exact absurd h (by simp)
        · simp only [h4, except_bind_ok] at h
          rcases h5 : loadPhase
              (scanModules fs (check_config fs st).2.1).2.2.app_config
              (scanModules fs (check_config fs st).2.1).1 lf q3
              with e | q5
          · simp only [h5, except_bind_error] at h
            exact absurd h (by simp)
          · simp only [h5, except_bind_ok] at h
            rcases h6 : initPhase
                (scanModules fs (check_config fs st).2.1).2.2.app_config
                q5.1 with e | q6
            · simp only [h6, except_bind_error] at h
              exact absurd h (by simp)
            · simp only [h6, except_bind_ok, except_pure_eq_ok,
                Except.ok.injEq, Prod.mk.injEq] at h
              obtain ⟨hst, hp, hev⟩ := h
              subst hst
              exact ⟨rfl, rfl, rfl, rfl⟩

/-- C8, amended: after any successful reconciliation cycle, a second
cycle over an unchanged file system detects no changes: it returns the
same state, an empty plan and no events.  (The first run's plan reflects
whatever had changed before it and need not be empty.) -/
theorem C8_second_run_empty (fs : FS) (st : AMState)
    (plugin : Option String) (lf : List MPath) (st1 : AMState)
    (p1 : Option Plan) (ev1 : List Event)
    (h : check_app_updates fs st plugin lf = .ok (st1, p1, ev1)) :
    check_app_updates fs st1 none [] =
      .ok (st1, some ⟨[], [], st1.app_config.length⟩, []) := by
  obtain ⟨hwm0, hlist0, hcfg0, hmon0⟩ := check_app_updates_state h
  have hwm1 : ∀ f ∈ fs.configFiles,
      f.2.1 ≤ st1.app_config_file_modified := by
    intro f hf
    rw [hwm0, (check_config_fields fs st).1]
    exact foldlMax_mem_le hf _
  have hlist1 : st1.app_config_files =
      some (fs.configFiles.map Prod.fst) := by
    rw [hlist0]
    exact (check_config_fields fs st).2
  have hmon1 : ∀ f ∈ fs.moduleFiles, ∃ s,
      mlookup st1.monitored_files f.1 = some s ∧ f.2 ≤ s := by
    rw [hmon0]
    exact scanModules_monitored_complete fs _
  have hkeys1 : ∀ p ∈ st1.monitored_files,
      p.1 ∈ fs.moduleFiles.map Prod.fst := by
    rw [hmon0]
    exact scanModules_monitored_keys fs _
  have hcc : check_config fs st1 =
      (some ⟨[], [], st1.app_config.length⟩, st1, []) :=
    check_config_steady fs st1 hwm1 hlist1
  have hsm : scanModules fs st1 = ([], [], st1) :=
    scanModules_steady fs st1 hmon1 hkeys1
  simp only [check_app_updates, hcc, hsm]
  rfl

/-- C8, counterexample: nothing is modified between the two runs, yet
the first run's plan is not empty — it initializes `a1` — so the claim
that both runs yield an empty plan is false (only the second run's plan
is empty). -/
theorem C8_counterexample :
    ((check_app_updates fsC8 stC8 none []).map
      (fun r => (Prod.fst (Prod.snd r)).map Plan.init)) =
      .ok (some ["a1"]) := by decide

/-- C8, witness for the amended theorem. -/
theorem C8_witness :
    check_app_updates fsC8 stC8 none [] = .ok r1C8 ∧
    check_app_updates fsC8 r1C8.1 none [] =
      .ok (r1C8.1, some ⟨[], [], r1C8.1.app_config.length⟩, []) :=
  ⟨by decide,
   C8_second_run_empty fsC8 stC8 none [] r1C8.1 r1C8.2.1 r1C8.2.2
     (by decide)⟩
